import Mathlib

/-!
Shallow embedding of the tree/navigation/optimizer core of the analyzed
repository:

* `src/utils/tree-optimizer.ts` — `TreeOptimizer` (validateTree,
  calculateMetrics), `TreeCache`, and the edge-function `TreeGenerator`
  (findRootNode, buildTreeStructure, generateTree, path formatting);
* `src/unnamed/part_000` — `TreeNavigator` (getNavigationPath,
  breadcrumbs, available actions, getTreeStats) and
  `TreeUtils.findShortestPath`.

Conventions of the embedding:

* JavaScript `Map`s and `Record` objects are association lists
  `List (String × _)` in iteration/insertion order; lookup is the first
  entry with the given key (collections coming from the repository have
  pairwise-distinct keys, under which this agrees with `Map`/object
  semantics).
* JavaScript numbers occurring in the data (`player`, `street`, `amount`,
  `depth`) are naturals, as in the source data format.  The two statistics
  that can produce `NaN` / `-Infinity` are given the explicit value type
  `JsNum` below.
* Optional/truthy string fields (`action.node`, `parentId` in truthiness
  position) are `Option String`; the helper `jsStr` reproduces JavaScript
  truthiness, under which the empty string is falsy.
* The recursive tree construction and the BFS loop are written with an
  explicit fuel parameter large enough for the fuel never to run out
  (proved where a claim needs it); the source recursions terminate by the
  same visited-set argument.
-/

namespace PokerTree

/-- One step of a record's `sequence` (see `ActionSequence` in
`src/types/tree.ts`). -/
structure SeqAction where
  player : Nat
  type : String
  amount : Nat
  street : Nat
deriving DecidableEq, Repr

/-- One available action of a record (see `NodeAction` in
`src/types/tree.ts`): `node` is the optional target identifier. -/
structure RawAction where
  type : String
  amount : Nat
  node : Option String
deriving DecidableEq, Repr

/-- One entry of the flat input collection (the per-node JSON files loaded
by `TreeGenerator.loadData`).  `hands` stands for the keys of the optional
hand-range payload; only emptiness is ever observed. -/
structure RawRecord where
  player : Nat
  street : Nat
  sequence : List SeqAction
  actions : List RawAction
  hands : List String
deriving DecidableEq, Repr

/-- The flat collection, in iteration order of the source `Map`. -/
abbrev FlatCollection := List (String × RawRecord)

/-- JavaScript truthiness of an optional string: `undefined` and `""` are
falsy, any other string is truthy. -/
def jsStr : Option String → Option String
  | none => none
  | some s => if s = "" then none else some s

/-- First-match association-list lookup (JS `Map.get` / object indexing on
collections with distinct keys). -/
def findKey {α : Type} : List (String × α) → String → Option α
  | [], _ => none
  | e :: rest, k => if e.1 = k then some e.2 else findKey rest k

/-- A node of the built tree (see `TreeNode` in `src/types/tree.ts`). -/
structure TreeNode where
  id : String
  parentId : Option String
  player : Nat
  street : Nat
  sequence : List SeqAction
  actions : List RawAction
  children : List String
  depth : Nat
  path : String
  isTerminal : Bool
  hasHandData : Bool
deriving DecidableEq, Repr

/-- The built tree (see `OptimizedTree` in `src/types/tree.ts`).  The
metadata block (`generatedAt` timestamp, version, node counts) and the
derived `maxDepth`/`playerCount` fields are omitted: no claim concerns
them and the timestamp is not a function of the input. -/
structure OptimizedTree where
  nodes : List (String × TreeNode)
  root : String
deriving DecidableEq, Repr

namespace TreeGenerator

/-- Seat names used by `getPlayerName` in `src/utils/tree-optimizer.ts`. -/
def positions : List String := ["SB", "BB", "BTN", "CO", "MP", "UTG"]

/-- `getPlayerName`: seat name for small indices, else `P{index}`. -/
def getPlayerName (player : Nat) : String :=
  (positions.get? player).getD ("P" ++ toString player)

/-- `formatAmount` of `TreeGenerator`: `(amount/1e6).toFixed(1) + "M"` for
millions, `(amount/1e3).toFixed(0) + "K"` for thousands, else the plain
integer.  `toFixed` is modelled as exact half-up decimal rounding, which
agrees with the JavaScript double computation on all inputs the claims
evaluate (the quotients involved are exactly representable). -/
def formatAmount (amount : Nat) : String :=
  if amount ≥ 1000000 then
    let d := (amount + 50000) / 100000
    toString (d / 10) ++ "." ++ toString (d % 10) ++ "M"
  else if amount ≥ 1000 then
    toString ((amount + 500) / 1000) ++ "K"
  else
    toString amount

/-- `getActionName` of `TreeGenerator`. -/
def getActionName (type : String) (amount : Nat) : String :=
  if type = "F" then "Fold"
  else if type = "C" then "Call"
  else if type = "X" then "Check"
  else if type = "R" then
    (if amount > 0 then "Raise " ++ formatAmount amount else "Raise")
  else type

/-- `buildNodePath`: the human-readable `path` string of a node. -/
def buildNodePath (sequence : List SeqAction) : String :=
  if sequence.isEmpty then "Root"
  else
    String.intercalate " → "
      (sequence.map fun a => getPlayerName a.player ++ ": " ++ getActionName a.type a.amount)

/-- Target identifiers extracted from a record's actions, in action order
(`buildTreeStructure`: `if (action.node && typeof action.node === 'string')
children.push(action.node)`). -/
def childTargets (actions : List RawAction) : List String :=
  actions.filterMap fun a => jsStr a.node

/-- The normalized copy of one action stored on a built node
(`actions.map` in `buildTreeStructure`; the spread drops a falsy `node`). -/
def normAction (a : RawAction) : RawAction :=
  { type := a.type, amount := a.amount, node := jsStr a.node }

/-- The `TreeNode` literal constructed by `buildTreeStructure` for a source
record. -/
def mkTreeNode (nodeId : String) (parentId : Option String) (depth : Nat)
    (raw : RawRecord) : TreeNode :=
  let children := childTargets raw.actions
  { id := nodeId
    parentId := parentId
    player := raw.player
    street := raw.street
    sequence := raw.sequence
    actions := raw.actions.map normAction
    children := children
    depth := depth
    path := buildNodePath raw.sequence
    isTerminal := children.isEmpty
    hasHandData := !raw.hands.isEmpty }

/-- `findRootNode`: one pass returning the first record whose `sequence` is
empty or whose identifier is `"0"`; else the first record never referenced
as an action target; else the `Could not find root node` error. -/
def findRootNode (c : FlatCollection) : Except String String :=
  match c.find? (fun p => p.2.sequence.isEmpty || p.1 == "0") with
  | some p => .ok p.1
  | none =>
    let childNodes := c.foldr (fun p acc => (p.2.actions.filterMap fun a => jsStr a.node) ++ acc) []
    match c.find? (fun p => decide (p.1 ∉ childNodes)) with
    | some p => .ok p.1
    | none => .error "Could not find root node"

/-- `buildTreeStructure`, with explicit fuel.  A call returns the processed
map unchanged when the record is absent from the collection or already
processed; otherwise it appends the new node and recurses over the
children in order.  The fuel is an embedding artifact: the source
recursion terminates because each productive call adds one collection key
to `processedNodes`. -/
def buildAux (c : FlatCollection) :
    Nat → String → Option String → Nat → List (String × TreeNode) → List (String × TreeNode)
  | 0, _, _, _, proc => proc
  | fuel + 1, nodeId, parentId, depth, proc =>
    match findKey c nodeId with
    | none => proc
    | some raw =>
      if (findKey proc nodeId).isSome then proc
      else
        let node := mkTreeNode nodeId parentId depth raw
        (childTargets raw.actions).foldl
          (fun pr childId => buildAux c fuel childId (some nodeId) (depth + 1) pr)
          (proc ++ [(nodeId, node)])

/-- `buildTreeStructure(rootId)` starting from an empty processed map.
`c.length + 2` units of fuel always suffice (each productive frame
consumes one unprocessed key; see `buildAux_closed`). -/
def buildTreeStructure (c : FlatCollection) (rootId : String) : List (String × TreeNode) :=
  buildAux c (c.length + 2) rootId none 0 []

/-- `generateTree`: resolve the root, build the node map, package the
tree.  The only failure is root resolution; `buildTreeStructure` has no
error path. -/
def generateTree (c : FlatCollection) : Except String OptimizedTree :=
  match findRootNode c with
  | .error e => .error e
  | .ok rootId => .ok { nodes := buildTreeStructure c rootId, root := rootId }

end TreeGenerator

namespace TreeNavigator

/-- `formatAmount` of `TreeNavigator` in `src/unnamed/part_000` (same body
as the generator's copy; the duplication mirrors the source). -/
def formatAmount (amount : Nat) : String :=
  if amount ≥ 1000000 then
    let d := (amount + 50000) / 100000
    toString (d / 10) ++ "." ++ toString (d % 10) ++ "M"
  else if amount ≥ 1000 then
    toString ((amount + 500) / 1000) ++ "K"
  else
    toString amount

/-- `formatActionLabel` of `TreeNavigator`. -/
def formatActionLabel (type : String) (amount : Nat) : String :=
  if type = "F" then "Fold"
  else if type = "C" then "Call"
  else if type = "X" then "Check"
  else if type = "R" then
    (if amount > 0 then "Raise " ++ formatAmount amount else "Raise")
  else type

end TreeNavigator

/-- Explicit value type for the two JavaScript number computations that can
leave the naturals: division by zero (`NaN` / `Infinity`) and
`Math.max()` of an empty spread (`-Infinity`). -/
inductive JsNum where
  | nan : JsNum
  | negInf : JsNum
  | posInf : JsNum
  | val : ℚ → JsNum
deriving DecidableEq, Repr

/-- JavaScript division of two naturals: `0/0 = NaN`, `a/0 = Infinity` for
`a > 0`, else the exact quotient. -/
def jsDivNat (a b : Nat) : JsNum :=
  if b = 0 then (if a = 0 then .nan else .posInf) else .val ((a : ℚ) / (b : ℚ))

/-- JavaScript `Math.max(...list)` over naturals: `-Infinity` on the empty
list. -/
def jsMaxNat (l : List Nat) : JsNum :=
  match l with
  | [] => .negInf
  | _ => .val (l.foldl max 0 : Nat)

namespace TreeOptimizer

/-- The error block produced for one node by the `forEach` body of
`TreeOptimizer.validateTree`: parent resolution, child resolution,
action-target resolution and parent/child depth consistency, in source
order. -/
def nodeErrors (tree : OptimizedTree) (nodeIds : List String)
    (e : String × TreeNode) : List String :=
  let nodeId := e.1
  let node := e.2
  let parentErrs :=
    match jsStr node.parentId with
    | some pid =>
      if pid ∈ nodeIds then []
      else [s!"Node {nodeId} references non-existent parent {pid}"]
    | none => []
  let childErrs := node.children.filterMap fun childId =>
    if childId ∈ nodeIds then none
    else some s!"Node {nodeId} references non-existent child {childId}"
  let actionErrs := node.actions.enum.filterMap fun ia =>
    match jsStr ia.2.node with
    | some target =>
      if target ∈ nodeIds then none
      else
        let index := ia.1
        some s!"Node {nodeId} action {index} references non-existent node {target}"
    | none => none
  let depthErrs :=
    match jsStr node.parentId with
    | some pid =>
      match findKey tree.nodes pid with
      | some parent =>
        if parent.depth + 1 ≠ node.depth then
          let d := node.depth
          let pd := parent.depth
          [s!"Node {nodeId} has inconsistent depth ({d}) relative to parent ({pd})"]
        else []
      | none => []
    | none => []
  parentErrs ++ childErrs ++ actionErrs ++ depthErrs

/-- `TreeOptimizer.validateTree`: accumulate every violation in order;
`isValid` iff no errors.  The five checks mirror the source: root
membership, then per node the four checks of `nodeErrors`. -/
def validateTree (tree : OptimizedTree) : Bool × List String :=
  let nodeIds := tree.nodes.map Prod.fst
  let rootErrs :=
    if tree.root ∈ nodeIds then []
    else [s!"Root node {tree.root} not found in nodes"]
  let errors := tree.nodes.foldl
    (fun acc e => acc ++ nodeErrors tree nodeIds e) rootErrs
  (errors.isEmpty, errors)

/-- The `avgBranchingFactor` computed by `TreeOptimizer.calculateMetrics`:
guarded, `0` when there is no non-terminal node.  (`balanceScore` and
`memoryFootprint` need real square roots and JSON serialization; no claim
concerns them and they are not modelled.) -/
def calculateMetricsAvgBranching (tree : OptimizedTree) : JsNum :=
  let branchingFactors :=
    ((tree.nodes.map Prod.snd).filter (fun n => !n.isTerminal)).map (·.children.length)
  if branchingFactors.length > 0 then
    jsDivNat branchingFactors.sum branchingFactors.length
  else .val 0

/-- The `maxBranchingFactor` computed by `TreeOptimizer.calculateMetrics`:
guarded, `0` when there is no non-terminal node. -/
def calculateMetricsMaxBranching (tree : OptimizedTree) : JsNum :=
  let branchingFactors :=
    ((tree.nodes.map Prod.snd).filter (fun n => !n.isTerminal)).map (·.children.length)
  if branchingFactors.length > 0 then jsMaxNat branchingFactors
  else .val 0

end TreeOptimizer

namespace TreeCache

/-- `TreeCache.maxSize` (capacity, default 100). -/
def maxSize : Nat := 100

/-- JS `Map.set`: update in place when the key is present, else append. -/
def mapSet {V : Type} (m : List (String × V)) (k : String) (v : V) : List (String × V) :=
  if k ∈ m.map Prod.fst then m.map (fun p => if p.1 = k then (k, v) else p)
  else m ++ [(k, v)]

/-- `TreeCache.set`: evict the earliest-inserted entry when at capacity,
then insert.  `get`/`has` never reorder, so eviction is FIFO by
insertion order. -/
def set {V : Type} (cache : List (String × V)) (k : String) (v : V) : List (String × V) :=
  let cache := if cache.length ≥ maxSize then cache.tail else cache
  mapSet cache k v

/-- `TreeCache.get`: plain lookup, no side effect. -/
def get {V : Type} (cache : List (String × V)) (k : String) : Option V :=
  findKey cache k

/-- `TreeCache.has`. -/
def has {V : Type} (cache : List (String × V)) (k : String) : Bool :=
  (findKey cache k).isSome

/-- One external cache operation: a `set` call or a `get` call. -/
inductive CacheOp (V : Type) where
  | set (k : String) (v : V)
  | get (k : String)
deriving DecidableEq

/-- State after running a sequence of cache operations; `get` is
side-effect-free in the source, so it leaves the state unchanged. -/
def runOps {V : Type} (ops : List (CacheOp V)) (cache : List (String × V)) :
    List (String × V) :=
  ops.foldl
    (fun st op =>
      match op with
      | .set k v => set st k v
      | .get _ => st)
    cache

/-- The `set` calls of an operation sequence, in order. -/
def setsOf {V : Type} (ops : List (CacheOp V)) : List (String × V) :=
  ops.filterMap fun op =>
    match op with
    | .set k v => some (k, v)
    | .get _ => none

end TreeCache

/-- One breadcrumb of a navigation path (see `BreadcrumbItem`). -/
structure BreadcrumbItem where
  nodeId : String
  label : String
  player : Nat
  action : String
deriving DecidableEq, Repr

/-- One available action of a navigation path (see `NavigationAction`). -/
structure NavigationAction where
  label : String
  targetNode : String
  type : String
  amount : Nat
  isAllIn : Bool
deriving DecidableEq, Repr

/-- A navigation query result (see `NavigationPath`). -/
structure NavigationPath where
  currentNode : String
  breadcrumbs : List BreadcrumbItem
  availableActions : List NavigationAction
deriving DecidableEq, Repr

namespace TreeNavigator

/-- `buildCache`: the identifier→node lookup `Map` filled once at
construction from `tree.nodes` in entry order. -/
def buildCache (nodes : List (String × TreeNode)) : List (String × TreeNode) :=
  nodes.foldl (fun m e => TreeCache.mapSet m e.1 e.2) []

/-- `isAllInAction`: stubbed to `false` in the source (no stack-size
context). -/
def isAllInAction (_amount : Nat) (_player : Nat) : Bool := false

/-- The upward `while` loop of `buildBreadcrumbs`, with fuel.  Each
iteration steps from the current node to its parent, prepending the
breadcrumb for the action that led downward (silently skipped when no
such action exists); reaching a parentless node prepends the synthetic
`"Start"` crumb, and a dangling `parentId` breaks out without it.  The
fuel is an embedding artifact: on a cyclic `parentId` chain the source
loop does not terminate, which no claim exercises. -/
def breadcrumbWalk (cache : List (String × TreeNode)) :
    Nat → TreeNode → List BreadcrumbItem → List BreadcrumbItem
  | 0, _, acc => acc
  | fuel + 1, cur, acc =>
    match jsStr cur.parentId with
    | none => { nodeId := cur.id, label := "Start", player := cur.player, action := "ROOT" } :: acc
    | some pid =>
      match findKey cache pid with
      | none => acc
      | some parentNode =>
        let acc :=
          match parentNode.actions.find? (fun a => decide (a.node = some cur.id)) with
          | some act =>
            { nodeId := pid
              label := formatActionLabel act.type act.amount
              player := parentNode.player
              action := act.type } :: acc
          | none => acc
        breadcrumbWalk cache fuel parentNode acc

/-- `buildBreadcrumbs`: empty for an unknown identifier (the `while` guard
and the root `if` both see `undefined`). -/
def buildBreadcrumbs (cache : List (String × TreeNode)) (nodeId : String) :
    List BreadcrumbItem :=
  match findKey cache nodeId with
  | none => []
  | some start => breadcrumbWalk cache (cache.length + 1) start []

/-- `getAvailableActions`: the actions carrying a (truthy) target, mapped
to UI entries. -/
def getAvailableActions (cache : List (String × TreeNode)) (nodeId : String) :
    List NavigationAction :=
  match findKey cache nodeId with
  | none => []
  | some node =>
    (node.actions.filter (fun a => (jsStr a.node).isSome)).map fun a =>
      { label := formatActionLabel a.type a.amount
        targetNode := (jsStr a.node).getD ""
        type := a.type
        amount := a.amount
        isAllIn := isAllInAction a.amount node.player }

/-- `getNavigationPath`: `null` for an unknown identifier, else the current
node, breadcrumbs and available actions. -/
def getNavigationPath (cache : List (String × TreeNode)) (nodeId : String) :
    Option NavigationPath :=
  match findKey cache nodeId with
  | none => none
  | some _ =>
    some
      { currentNode := nodeId
        breadcrumbs := buildBreadcrumbs cache nodeId
        availableActions := getAvailableActions cache nodeId }

/-- The statistics record returned by `getTreeStats`.  The two branching
numbers are `JsNum` because the source computes them as unguarded
JavaScript arithmetic. -/
structure TreeStats where
  totalNodes : Nat
  terminalNodes : Nat
  maxDepth : JsNum
  avgBranchingFactor : JsNum
  maxBranchingFactor : JsNum
  nodesWithHandData : Nat
deriving DecidableEq, Repr

/-- `getTreeStats`: aggregate counts over the cached nodes;
`avgBranchingFactor` divides with no guard against zero non-terminal
nodes, and `maxBranchingFactor` spreads a possibly empty list into
`Math.max`. -/
def getTreeStats (cache : List (String × TreeNode)) : TreeStats :=
  let nodes := cache.map Prod.snd
  let branchingFactors := (nodes.filter (fun n => !n.isTerminal)).map (·.children.length)
  { totalNodes := nodes.length
    terminalNodes := (nodes.filter (·.isTerminal)).length
    maxDepth := jsMaxNat (nodes.map (·.depth))
    avgBranchingFactor := jsDivNat branchingFactors.sum branchingFactors.length
    maxBranchingFactor := jsMaxNat branchingFactors
    nodesWithHandData := (nodes.filter (·.hasHandData)).length }

end TreeNavigator

namespace TreeUtils

/-- The BFS loop of `TreeUtils.findShortestPath`, with fuel.  Each
iteration shifts the queue head; the target test precedes the visited
test and the node lookup, the visited set is extended before the children
are filtered against it, and unvisited children are pushed with the
extended path.  Fuel exhaustion returns `none`; `bfsFuel` below always
suffices (proved in `bfs_reaches`). -/
def bfsAux (nodes : List (String × TreeNode)) (toId : String) :
    Nat → List (String × List String) → List String → Option (List String)
  | 0, _, _ => none
  | _ + 1, [], _ => none
  | fuel + 1, (nodeId, path) :: rest, visited =>
    if nodeId = toId then some path
    else if nodeId ∈ visited then bfsAux nodes toId fuel rest visited
    else
      let visited := visited ++ [nodeId]
      match findKey nodes nodeId with
      | none => bfsAux nodes toId fuel rest visited
      | some node =>
        let pushes := (node.children.filter (fun ch => decide (ch ∉ visited))).map
          (fun ch => (ch, path ++ [ch]))
        bfsAux nodes toId fuel (rest ++ pushes) visited

/-- Total number of child slots of the not-yet-visited entries: the queue
work still possible from a state.  Used only to size and justify the
fuel. -/
def childBudget (nodes : List (String × TreeNode)) (visited : List String) : Nat :=
  ((nodes.filter (fun e => decide (e.1 ∉ visited))).map (fun e => e.2.children.length)).sum

/-- `findShortestPath(tree, fromNodeId, toNodeId)`: BFS over child links
from a single-entry queue.  The initial fuel covers one pop per possible
push. -/
def findShortestPath (tree : OptimizedTree) (fromNodeId toNodeId : String) :
    Option (List String) :=
  bfsAux tree.nodes toNodeId (childBudget tree.nodes [] + 1)
    [(fromNodeId, [fromNodeId])] []

/-- One directed child-link edge of the built tree: `b` is listed among the
children of the node stored for `a`. -/
def childLink (nodes : List (String × TreeNode)) (a b : String) : Prop :=
  ∃ n, findKey nodes a = some n ∧ b ∈ n.children

/-- A path following children links from `fromId` to `toId`: nonempty,
starts at `fromId`, ends at `toId`, and each element is a child of the
previous one. -/
def ValidChain (nodes : List (String × TreeNode)) (fromId toId : String)
    (p : List String) : Prop :=
  p.head? = some fromId ∧ p.getLast? = some toId ∧ List.Chain' (childLink nodes) p

end TreeUtils

/-- Decidable whole-collection check that every (truthy) action target
resolves to a record present in the collection. -/
def resolvesTargets (c : FlatCollection) : Bool :=
  c.all fun p => p.2.actions.all fun a =>
    match jsStr a.node with
    | some t => decide (t ∈ c.map Prod.fst)
    | none => true

/-- All action targets of the collection, in order. -/
def allTargets (c : FlatCollection) : List String :=
  c.foldr (fun p acc => TreeGenerator.childTargets p.2.actions ++ acc) []

/-- The collection's references form a tree: record identifiers are
pairwise distinct and no record is the target of two different actions
(each node has at most one incoming reference). -/
def TreeShapedRefs (c : FlatCollection) : Prop :=
  (c.map Prod.fst).Nodup ∧ (allTargets c).Nodup

/-- A nonempty prior-action step, used to give the non-root example
records a nonempty `sequence`. -/
def seqStep : SeqAction := { player := 0, type := "C", amount := 0, street := 0 }

/-- C1 input: the only record's single action targets "1", which is absent
from the collection. -/
def cexC1 : FlatCollection :=
  [("0", { player := 0, street := 0, sequence := [],
           actions := [{ type := "R", amount := 100, node := some "1" }], hands := [] })]

/-- The tree built from the dangling collection `cexC1`. -/
def tC1 : OptimizedTree :=
  { nodes := TreeGenerator.buildTreeStructure cexC1 "0", root := "0" }

/-- The record named "0" of `cexC2`: nonempty `sequence`, no actions. -/
def recNamedZero : RawRecord :=
  { player := 0, street := 0, sequence := [seqStep], actions := [], hands := [] }

/-- C2 input: the record named "0" has a nonempty sequence and comes first;
the record "1" has an empty sequence. -/
def cexC2 : FlatCollection :=
  [("0", recNamedZero),
   ("1", { player := 1, street := 0, sequence := [], actions := [], hands := [] })]

/-- C3 DAG input: "3" is the target of one action of "1" and one action of
"2". -/
def cexC3dag : FlatCollection :=
  [("0", { player := 0, street := 0, sequence := [],
           actions := [{ type := "R", amount := 100, node := some "1" },
                       { type := "C", amount := 0, node := some "2" }], hands := [] }),
   ("1", { player := 1, street := 0, sequence := [seqStep],
           actions := [{ type := "R", amount := 200, node := some "3" }], hands := [] }),
   ("2", { player := 1, street := 0, sequence := [seqStep],
           actions := [{ type := "C", amount := 0, node := some "3" }], hands := [] }),
   ("3", { player := 0, street := 1, sequence := [seqStep], actions := [], hands := [] })]

/-- C3 cyclic input: "0" points to "1" and "1" points back to "0". -/
def cexC3cyc : FlatCollection :=
  [("0", { player := 0, street := 0, sequence := [],
           actions := [{ type := "R", amount := 100, node := some "1" }], hands := [] }),
   ("1", { player := 1, street := 0, sequence := [seqStep],
           actions := [{ type := "C", amount := 0, node := some "0" }], hands := [] })]

/-- The node map built from the DAG input. -/
def c3dagNodes : List (String × TreeNode) :=
  TreeGenerator.buildTreeStructure cexC3dag "0"

/-- The node map built from the cyclic input. -/
def c3cycNodes : List (String × TreeNode) :=
  TreeGenerator.buildTreeStructure cexC3cyc "0"

/-- A record with no actions (a terminal decision point). -/
def termRec : RawRecord :=
  { player := 0, street := 0, sequence := [], actions := [], hands := [] }

/-- A one-node tree used by the navigation counterexample and witnesses. -/
def t6 : OptimizedTree :=
  { nodes := [("0", TreeGenerator.mkTreeNode "0" none 0 termRec)], root := "0" }

/-- Root record of the self-consistent example collection `cW5`. -/
def rec5root : RawRecord :=
  { player := 0, street := 0, sequence := [],
    actions := [{ type := "R", amount := 100, node := some "1" },
                { type := "F", amount := 0, node := none }], hands := [] }

/-- Leaf record of the self-consistent example collection `cW5`. -/
def rec5leaf : RawRecord :=
  { player := 1, street := 0, sequence := [seqStep], actions := [], hands := ["AA"] }

/-- A self-consistent two-record collection whose references form a tree. -/
def cW5 : FlatCollection := [("0", rec5root), ("1", rec5leaf)]

/-- The tree built from `cW5`. -/
def tW5 : OptimizedTree :=
  { nodes := TreeGenerator.buildTreeStructure cW5 "0", root := "0" }

/-- C7 witness operations: one `get` and 101 `set` calls with pairwise
distinct keys. -/
def c7ops : List (TreeCache.CacheOp Nat) :=
  TreeCache.CacheOp.get "k0" ::
    (List.range 101).map fun i => TreeCache.CacheOp.set ("k" ++ toString i) i

/-- The last 100 key/value pairs set by `c7ops`. -/
def c7rest : List (String × Nat) :=
  (List.range 100).map fun i => ("k" ++ toString (i + 1), i + 1)

/-- Folding only the `set` calls of an operation sequence (used to relate
`runOps` to the pure insertion order). -/
def runSets {V : Type} (pairs : List (String × V)) (cache : List (String × V)) :
    List (String × V) :=
  pairs.foldl (fun st p => TreeCache.set st p.1 p.2) cache

/-! Analysis predicates used by the tree-builder and BFS invariants. -/

/-- Every entry of the processed map was built from the record stored
under its key in the collection. -/
def FromSource (c : FlatCollection) (proc : List (String × TreeNode)) : Prop :=
  ∀ e ∈ proc, ∃ raw popt d, findKey c e.1 = some raw ∧
    e.2 = TreeGenerator.mkTreeNode e.1 popt d raw

/-- Every processed node's `parentId`, when present, resolves to a
processed node that lists it as a child one depth up. -/
def GoodParents (proc : List (String × TreeNode)) : Prop :=
  ∀ e ∈ proc, ∀ pid, e.2.parentId = some pid →
    ∃ pn, findKey proc pid = some pn ∧ e.1 ∈ pn.children ∧ e.2.depth = pn.depth + 1

/-- Number of collection keys not yet processed. -/
def unprocessedCount (c : FlatCollection) (proc : List (String × TreeNode)) : Nat :=
  ((c.map Prod.fst).filter fun k => decide (k ∉ proc.map Prod.fst)).length

/-- Every child reference of a processed entry that names a collection
record is itself processed. -/
def ClosedProc (c : FlatCollection) (proc : List (String × TreeNode)) : Prop :=
  ∀ e ∈ proc, ∀ ch ∈ e.2.children, ch ∈ c.map Prod.fst → ch ∈ proc.map Prod.fst

/-- Number of entries whose node has no parent (the root count). -/
def noneCount (proc : List (String × TreeNode)) : Nat :=
  proc.countP fun e => e.2.parentId.isNone

/-- Queue-entry invariant of the BFS: the stored path is a child-link
chain from the search origin to the entry's node. -/
def GoodEntry (nodes : List (String × TreeNode)) (fromId : String)
    (e : String × List String) : Prop :=
  e.2.head? = some fromId ∧ e.2.getLast? = some e.1 ∧
    List.Chain' (TreeUtils.childLink nodes) e.2

/-! Association-list lookup lemmas. -/

theorem findKey_isSome_iff {α : Type} (l : List (String × α)) (k : String) :
    (findKey l k).isSome ↔ k ∈ l.map Prod.fst := by
  induction l with
  | nil => simp [findKey]
  | cons e rest ih =>
    by_cases h : e.1 = k
    · simp [findKey, h]
    · simp [findKey, h, ih, Ne.symm h]

theorem findKey_eq_none_iff {α : Type} (l : List (String × α)) (k : String) :
    findKey l k = none ↔ k ∉ l.map Prod.fst := by
  rw [← findKey_isSome_iff]
  cases findKey l k <;> simp

theorem findKey_mem {α : Type} {l : List (String × α)} {k : String} {v : α}
    (h : findKey l k = some v) : (k, v) ∈ l := by
  induction l with
  | nil => simp [findKey] at h
  | cons e rest ih =>
    by_cases he : e.1 = k
    · simp only [findKey, if_pos he] at h
      obtain ⟨e1, e2⟩ := e
      obtain rfl : e2 = v := by injection h
      obtain rfl : e1 = k := he
      exact List.mem_cons_self _ _
    · simp only [findKey, if_neg he] at h
      exact .tail _ (ih h)

theorem findKey_append_left {α : Type} {l₁ : List (String × α)} {k : String} {v : α}
    (l₂ : List (String × α)) (h : findKey l₁ k = some v) :
    findKey (l₁ ++ l₂) k = some v := by
  induction l₁ with
  | nil => simp [findKey] at h
  | cons e rest ih =>
    by_cases he : e.1 = k
    · simp_all [findKey, if_pos he]
    · simp only [findKey, if_neg he] at h ⊢
      exact ih h

theorem findKey_append_right {α : Type} {l₁ : List (String × α)} {k : String}
    (l₂ : List (String × α)) (h : k ∉ l₁.map Prod.fst) :
    findKey (l₁ ++ l₂) k = findKey l₂ k := by
  induction l₁ with
  | nil => simp
  | cons e rest ih =>
    simp only [List.map_cons, List.mem_cons] at h
    push_neg at h
    have hne : ¬ e.1 = k := fun hh => h.1 hh.symm
    simp only [List.cons_append, findKey, if_neg hne]
    exact ih h.2

theorem mem_keys_of_mem {α : Type} {l : List (String × α)} {e : String × α}
    (h : e ∈ l) : e.1 ∈ l.map Prod.fst :=
  List.mem_map.mpr ⟨e, h, rfl⟩

theorem jsStr_eq_some {o : Option String} {s : String} (h : jsStr o = some s) :
    o = some s := by
  cases o with
  | none => simp [jsStr] at h
  | some t =>
    by_cases ht : t = ""
    · simp [jsStr, ht] at h
    · simpa [jsStr, ht] using h

/-- C9: concrete formatting facts.  `formatAmount(1500) = "2K"`,
`formatAmount(2500000) = "2.5M"`, `formatAmount(50) = "50"`,
`formatActionLabel("R",0) = "Raise"`, `formatActionLabel("R",200) =
"Raise 200"`, `formatActionLabel("F",0) = "Fold"`, for both the
generator's and the navigator's copies of the formatter. -/
theorem c9_formatting :
    TreeGenerator.formatAmount 1500 = "2K" ∧
    TreeGenerator.formatAmount 2500000 = "2.5M" ∧
    TreeGenerator.formatAmount 50 = "50" ∧
    TreeGenerator.getActionName "R" 0 = "Raise" ∧
    TreeGenerator.getActionName "R" 200 = "Raise 200" ∧
    TreeGenerator.getActionName "F" 0 = "Fold" ∧
    TreeNavigator.formatAmount 1500 = "2K" ∧
    TreeNavigator.formatAmount 2500000 = "2.5M" ∧
    TreeNavigator.formatAmount 50 = "50" ∧
    TreeNavigator.formatActionLabel "R" 0 = "Raise" ∧
    TreeNavigator.formatActionLabel "R" 200 = "Raise 200" ∧
    TreeNavigator.formatActionLabel "F" 0 = "Fold" := by
  refine ⟨?_, ?_, ?_, ?_, ?_, ?_, ?_, ?_, ?_, ?_, ?_, ?_⟩ <;> decide

/-- C2 counterexample: in `cexC2` the record "1" has an empty `sequence`
while the record returned by `findRootNode` is "0", whose `sequence` is
nonempty — the conventional root key wins over the empty-sequence record
because both conditions are tested together in one pass, refuting the
claimed strict precedence of step 1 over step 2. -/
theorem c2_counterexample :
    TreeGenerator.findRootNode cexC2 = Except.ok "0" ∧
    (∃ p ∈ cexC2, p.2.sequence = []) ∧
    (∀ p ∈ cexC2, p.1 = "0" → p.2.sequence ≠ []) := by
  refine ⟨rfl, ?_, ?_⟩ <;> decide

/-- C2 amended: `findRootNode` returns the identifier of the first record
in iteration order satisfying the combined test "`sequence` is empty or
the identifier is \x7b literally \x7d `\"0\"`" — a record named "0"
encountered before every empty-sequence record wins despite its nonempty
sequence. -/
theorem c2_amended (c : FlatCollection) (p : String × RawRecord)
    (h : c.find? (fun q => q.2.sequence.isEmpty || q.1 == "0") = some p) :
    TreeGenerator.findRootNode c = Except.ok p.1 := by
  unfold TreeGenerator.findRootNode
  rw [h]

/-- Witness for `c2_amended` at the concrete collection `cexC2`. -/
theorem c2_amended_witness : TreeGenerator.findRootNode cexC2 = Except.ok "0" :=
  c2_amended cexC2 ("0", recNamedZero) (by decide)

/-- C1 counterexample: `cexC1`'s only record carries an action targeting
"1", which is absent from the collection, yet `generateTree` completes
with a tree (no `DanglingReference` failure); the emitted node still
lists "1" among its children while no node "1" exists. -/
theorem c1_counterexample :
    TreeGenerator.generateTree cexC1 =
      Except.ok
        { nodes := [("0",
            { id := "0", parentId := none, player := 0, street := 0, sequence := [],
              actions := [{ type := "R", amount := 100, node := some "1" }],
              children := ["1"], depth := 0, path := "Root", isTerminal := false,
              hasHandData := false })],
          root := "0" } ∧
    findKey cexC1 "1" = none ∧
    (∃ p ∈ cexC1, ∃ a ∈ p.2.actions, jsStr a.node = some "1") := by
  refine ⟨rfl, rfl, ?_⟩
  decide

/-! Cache lemmas (C7) and navigator-cache membership (C10). -/

theorem mem_mapSet {V : Type} {m : List (String × V)} {k : String} {v : V} {e : String × V}
    (h : e ∈ TreeCache.mapSet m k v) : e ∈ m ∨ e = (k, v) := by
  unfold TreeCache.mapSet at h
  by_cases hk : k ∈ m.map Prod.fst
  · rw [if_pos hk] at h
    rcases List.mem_map.mp h with ⟨p, hp, rfl⟩
    by_cases hpk : p.1 = k
    · right; rw [if_pos hpk]
    · left; rw [if_neg hpk]; exact hp
  · rw [if_neg hk] at h
    rcases List.mem_append.mp h with h1 | h1
    · exact .inl h1
    · right; simpa using h1

theorem mem_buildCache {nodes : List (String × TreeNode)} {e : String × TreeNode}
    (h : e ∈ TreeNavigator.buildCache nodes) : e ∈ nodes := by
  suffices H : ∀ (l acc : List (String × TreeNode)),
      e ∈ l.foldl (fun m x => TreeCache.mapSet m x.1 x.2) acc → e ∈ acc ∨ e ∈ l by
    rcases H nodes [] h with h1 | h1
    · simp at h1
    · exact h1
  intro l
  induction l with
  | nil => intro acc hacc; exact .inl hacc
  | cons x xs ih =>
    intro acc hacc
    rcases ih _ hacc with h1 | h1
    · rcases mem_mapSet h1 with h2 | h2
      · exact .inl h2
      · right; simp [h2]
    · right; right; exact h1

/-- C10: on a tree all of whose nodes are terminal, `getTreeStats` returns
`NaN` as average branching factor (a 0/0 division) and `-Infinity` as
maximum branching factor (`Math.max` of an empty spread), while
`calculateMetrics` guards the same computations and returns `0` for
both. -/
theorem c10_stats_divergence (t : OptimizedTree)
    (h : ∀ e ∈ t.nodes, e.2.isTerminal = true) :
    (TreeNavigator.getTreeStats (TreeNavigator.buildCache t.nodes)).avgBranchingFactor =
      JsNum.nan ∧
    (TreeNavigator.getTreeStats (TreeNavigator.buildCache t.nodes)).maxBranchingFactor =
      JsNum.negInf ∧
    TreeOptimizer.calculateMetricsAvgBranching t = JsNum.val 0 ∧
    TreeOptimizer.calculateMetricsMaxBranching t = JsNum.val 0 := by
  have hc : ∀ e ∈ TreeNavigator.buildCache t.nodes, e.2.isTerminal = true :=
    fun e he => h e (mem_buildCache he)
  have hf : ((TreeNavigator.buildCache t.nodes).map Prod.snd).filter
      (fun n => !n.isTerminal) = [] := by
    rw [List.filter_eq_nil_iff]
    intro n hn
    rcases List.mem_map.mp hn with ⟨e, he, rfl⟩
    simp [hc e he]
  have hf2 : (t.nodes.map Prod.snd).filter (fun n => !n.isTerminal) = [] := by
    rw [List.filter_eq_nil_iff]
    intro n hn
    rcases List.mem_map.mp hn with ⟨e, he, rfl⟩
    simp [h e he]
  refine ⟨?_, ?_, ?_, ?_⟩
  · simp [TreeNavigator.getTreeStats, hf, jsDivNat]
  · simp [TreeNavigator.getTreeStats, hf, jsMaxNat]
  · simp [TreeOptimizer.calculateMetricsAvgBranching, hf2]
  · simp [TreeOptimizer.calculateMetricsMaxBranching, hf2]

/-- Witness for `c10_stats_divergence` at the one-node tree `t6`. -/
theorem c10_witness :
    (TreeNavigator.getTreeStats (TreeNavigator.buildCache t6.nodes)).avgBranchingFactor =
      JsNum.nan ∧
    (TreeNavigator.getTreeStats (TreeNavigator.buildCache t6.nodes)).maxBranchingFactor =
      JsNum.negInf ∧
    TreeOptimizer.calculateMetricsAvgBranching t6 = JsNum.val 0 ∧
    TreeOptimizer.calculateMetricsMaxBranching t6 = JsNum.val 0 :=
  c10_stats_divergence t6 (by decide)

theorem mapSet_not_mem {V : Type} {m : List (String × V)} {k : String} {v : V}
    (h : k ∉ m.map Prod.fst) : TreeCache.mapSet m k v = m ++ [(k, v)] := by
  unfold TreeCache.mapSet
  rw [if_neg h]

theorem cacheSet_eq {V : Type} (st : List (String × V)) (k : String) (v : V) :
    TreeCache.set st k v =
      TreeCache.mapSet (if st.length ≥ TreeCache.maxSize then st.tail else st) k v := rfl

theorem runOps_eq_runSets {V : Type} :
    ∀ (ops : List (TreeCache.CacheOp V)) (st : List (String × V)),
      TreeCache.runOps ops st = runSets (TreeCache.setsOf ops) st := by
  intro ops
  induction ops with
  | nil => intro st; rfl
  | cons op ops ih =>
    intro st
    cases op with
    | set k v =>
      have h1 : TreeCache.runOps (TreeCache.CacheOp.set k v :: ops) st =
          TreeCache.runOps ops (TreeCache.set st k v) := rfl
      have h2 : runSets (TreeCache.setsOf (TreeCache.CacheOp.set k v :: ops)) st =
          runSets (TreeCache.setsOf ops) (TreeCache.set st k v) := rfl
      rw [h1, h2]
      exact ih _
    | get k =>
      have h1 : TreeCache.runOps (TreeCache.CacheOp.get k :: ops) st =
          TreeCache.runOps ops st := rfl
      have h2 : runSets (TreeCache.setsOf (TreeCache.CacheOp.get k :: ops)) st =
          runSets (TreeCache.setsOf ops) st := rfl
      rw [h1, h2]
      exact ih st

theorem runSets_fill {V : Type} :
    ∀ (pairs st : List (String × V)),
      st.length + pairs.length ≤ 100 →
      (st.map Prod.fst ++ pairs.map Prod.fst).Nodup →
      runSets pairs st = st ++ pairs := by
  intro pairs
  induction pairs with
  | nil => intro st _ _; simp [runSets]
  | cons p ps ih =>
    intro st hlen hnd
    simp only [List.map_cons] at hnd
    have hnd' := hnd
    rw [List.nodup_append] at hnd'
    have hmem : p.1 ∉ st.map Prod.fst := fun hm =>
      hnd'.2.2 hm (List.mem_cons_self _ _)
    have hlen' : st.length + ps.length + 1 ≤ 100 := by
      simp only [List.length_cons] at hlen
      omega
    have hcap : ¬ st.length ≥ TreeCache.maxSize := by
      simp only [TreeCache.maxSize]
      omega
    have hst : TreeCache.set st p.1 p.2 = st ++ [p] := by
      rw [cacheSet_eq, if_neg hcap, mapSet_not_mem hmem]
    have hrec : runSets (p :: ps) st = runSets ps (st ++ [p]) := by
      simp only [runSets, List.foldl_cons]
      rw [hst]
    rw [hrec, ih (st ++ [p]) (by simp; omega)
      (by
        have heq : (st ++ [p]).map Prod.fst ++ ps.map Prod.fst =
            st.map Prod.fst ++ p.1 :: ps.map Prod.fst := by simp
        rw [heq]
        exact hnd)]
    simp

/-- C7: starting from the empty bounded cache and performing 101 `set`
calls with pairwise distinct keys, interleaved with arbitrarily many
`get` calls, the final state holds exactly the last 100 keys: the
first-inserted key is evicted (`has` is false for it) and every other key
is present — `get` calls never affect eviction because they do not touch
the state. -/
theorem c7_fifo {V : Type} (ops : List (TreeCache.CacheOp V)) (k0 : String) (v0 : V)
    (rest : List (String × V))
    (hsets : TreeCache.setsOf ops = (k0, v0) :: rest)
    (hlen : rest.length = 100)
    (hnd : (k0 :: rest.map Prod.fst).Nodup) :
    TreeCache.has (TreeCache.runOps ops []) k0 = false ∧
    ∀ p ∈ rest, TreeCache.has (TreeCache.runOps ops []) p.1 = true := by
  have hne : rest ≠ [] := by
    intro h
    rw [h] at hlen
    simp at hlen
  obtain ⟨rest1, pl, hsplit⟩ : ∃ r1 pl, rest = r1 ++ [pl] :=
    ⟨rest.dropLast, rest.getLast hne, (List.dropLast_append_getLast hne).symm⟩
  have hlen1 : rest1.length = 99 := by
    rw [hsplit] at hlen
    simp at hlen
    omega
  have hstep1 : runSets ((k0, v0) :: rest1) [] = (k0, v0) :: rest1 := by
    apply runSets_fill
    · simp [hlen1]
    · have hsub : List.Sublist (k0 :: rest1.map Prod.fst) (k0 :: rest.map Prod.fst) := by
        refine List.Sublist.cons₂ _ ?_
        rw [hsplit]
        simp only [List.map_append]
        exact List.sublist_append_left _ _
      simpa using List.Nodup.sublist hsub hnd
  have hplnot : pl.1 ∉ rest1.map Prod.fst := by
    have h2 := hnd.of_cons
    rw [hsplit] at h2
    simp only [List.map_append] at h2
    rw [List.nodup_append] at h2
    exact fun hm => h2.2.2 hm (by simp)
  have hrun : TreeCache.runOps ops [] = rest := by
    rw [runOps_eq_runSets, hsets, hsplit]
    have hcons : (k0, v0) :: (rest1 ++ [pl]) = ((k0, v0) :: rest1) ++ [pl] := rfl
    rw [hcons]
    simp only [runSets] at hstep1 ⊢
    rw [List.foldl_append, hstep1]
    simp only [List.foldl_cons, List.foldl_nil]
    have hA : ((k0, v0) :: rest1).length ≥ TreeCache.maxSize := by
      simp [hlen1, TreeCache.maxSize]
    rw [cacheSet_eq, if_pos hA]
    simp only [List.tail_cons]
    rw [mapSet_not_mem hplnot]
  rw [hrun]
  constructor
  · have : findKey rest k0 = none :=
      (findKey_eq_none_iff rest k0).mpr (by
        have := hnd
        rw [List.nodup_cons] at this
        exact this.1)
    simp [TreeCache.has, this]
  · intro p hp
    have : (findKey rest p.1).isSome :=
      (findKey_isSome_iff rest p.1).mpr (mem_keys_of_mem hp)
    simpa [TreeCache.has] using this

/-- Witness for `c7_fifo`: the concrete operation sequence `c7ops` (one
`get` followed by 101 distinct `set` calls). -/
theorem c7_fifo_witness :
    TreeCache.has (TreeCache.runOps c7ops []) "k0" = false ∧
    ∀ p ∈ c7rest, TreeCache.has (TreeCache.runOps c7ops []) p.1 = true :=
  c7_fifo c7ops "k0" 0 c7rest (by decide) (by decide) (by decide)

/-! Tree-builder invariant lemmas. -/

theorem foldl_ext {α β : Type} (step : List α → β → List α)
    (hstep : ∀ acc b, ∃ e, step acc b = acc ++ e) :
    ∀ (l : List β) (acc : List α), ∃ e, l.foldl step acc = acc ++ e := by
  intro l
  induction l with
  | nil => intro acc; exact ⟨[], by simp⟩
  | cons b bs ih =>
    intro acc
    obtain ⟨e1, he1⟩ := hstep acc b
    obtain ⟨e2, he2⟩ := ih (step acc b)
    refine ⟨e1 ++ e2, ?_⟩
    rw [List.foldl_cons, he2, he1, List.append_assoc]

theorem buildAux_mono (c : FlatCollection) :
    ∀ (fuel : Nat) (id : String) (popt : Option String) (d : Nat)
      (proc : List (String × TreeNode)),
      ∃ e, TreeGenerator.buildAux c fuel id popt d proc = proc ++ e := by
  intro fuel
  induction fuel with
  | zero => intro id popt d proc; exact ⟨[], by simp [TreeGenerator.buildAux]⟩
  | succ f ih =>
    intro id popt d proc
    cases hfind : findKey c id with
    | none =>
      refine ⟨[], ?_⟩
      simp [TreeGenerator.buildAux, hfind]
    | some raw =>
      simp only [TreeGenerator.buildAux, hfind]
      by_cases hp : (findKey proc id).isSome
      · rw [if_pos hp]
        exact ⟨[], by simp⟩
      · rw [if_neg hp]
        obtain ⟨e2, he2⟩ := foldl_ext _ (fun acc b => ih b (some id) (d + 1) acc)
          (TreeGenerator.childTargets raw.actions)
          (proc ++ [(id, TreeGenerator.mkTreeNode id popt d raw)])
        exact ⟨[(id, TreeGenerator.mkTreeNode id popt d raw)] ++ e2,
          by rw [he2, List.append_assoc]⟩

theorem buildAux_progress (c : FlatCollection) (f : Nat) (id : String)
    (popt : Option String) (d : Nat) (proc : List (String × TreeNode))
    (hid : id ∈ c.map Prod.fst) :
    id ∈ (TreeGenerator.buildAux c (f + 1) id popt d proc).map Prod.fst := by
  obtain ⟨raw, hraw⟩ : ∃ raw, findKey c id = some raw := by
    have hs := (findKey_isSome_iff c id).mpr hid
    cases hfk : findKey c id
    · rw [hfk] at hs; simp at hs
    · exact ⟨_, rfl⟩
  simp only [TreeGenerator.buildAux, hraw]
  show id ∈ (List.map Prod.fst _)
  by_cases hp : (findKey proc id).isSome
  · rw [if_pos hp]
    exact (findKey_isSome_iff proc id).mp hp
  · rw [if_neg hp]
    obtain ⟨e, he⟩ := foldl_ext _ (fun acc b => buildAux_mono c f b (some id) (d + 1) acc)
      (TreeGenerator.childTargets raw.actions)
      (proc ++ [(id, TreeGenerator.mkTreeNode id popt d raw)])
    rw [he]
    simp

theorem foldl_inv {α β : Type} (step : α → β → α) (P : α → Prop) :
    ∀ (l : List β), (∀ acc b, b ∈ l → P acc → P (step acc b)) →
      ∀ acc, P acc → P (l.foldl step acc) := by
  intro l
  induction l with
  | nil => intro _ acc h; simpa using h
  | cons b bs ih =>
    intro hstep acc h
    rw [List.foldl_cons]
    exact ih (fun a x hx hp => hstep a x (List.mem_cons_of_mem _ hx) hp) _
      (hstep acc b (List.mem_cons_self _ _) h)

theorem buildAux_goodParents (c : FlatCollection) :
    ∀ (fuel : Nat) (id : String) (popt : Option String) (d : Nat)
      (proc : List (String × TreeNode)),
      GoodParents proc →
      (∀ pid, popt = some pid →
        ∃ pn, findKey proc pid = some pn ∧ id ∈ pn.children ∧ d = pn.depth + 1) →
      GoodParents (TreeGenerator.buildAux c fuel id popt d proc) := by
  intro fuel
  induction fuel with
  | zero =>
    intro id popt d proc hgp _
    simpa [TreeGenerator.buildAux] using hgp
  | succ f ih =>
    intro id popt d proc hgp hcall
    cases hfind : findKey c id with
    | none => simpa [TreeGenerator.buildAux, hfind] using hgp
    | some raw =>
      simp only [TreeGenerator.buildAux, hfind]
      by_cases hp : (findKey proc id).isSome
      · rw [if_pos hp]; exact hgp
      · rw [if_neg hp]
        set node := TreeGenerator.mkTreeNode id popt d raw with hnode
        have hid_not : id ∉ proc.map Prod.fst := by
          rw [← findKey_isSome_iff]
          simpa using hp
        have hfk1 : findKey (proc ++ [(id, node)]) id = some node := by
          rw [findKey_append_right _ hid_not]
          simp [findKey]
        have hgp1 : GoodParents (proc ++ [(id, node)]) := by
          intro e he pid hpid
          rcases List.mem_append.mp he with he1 | he1
          · obtain ⟨pn, hpn, hch, hd⟩ := hgp e he1 pid hpid
            exact ⟨pn, findKey_append_left _ hpn, hch, hd⟩
          · have he2 : e = (id, node) := by simpa using he1
            subst he2
            have hpopt : popt = some pid := by
              simpa [hnode, TreeGenerator.mkTreeNode] using hpid
            obtain ⟨pn, hpn, hch, hd⟩ := hcall pid hpopt
            refine ⟨pn, findKey_append_left _ hpn, hch, ?_⟩
            simpa [hnode, TreeGenerator.mkTreeNode] using hd
        have hstep : ∀ acc ch, ch ∈ TreeGenerator.childTargets raw.actions →
            (GoodParents acc ∧ findKey acc id = some node) →
            (GoodParents (TreeGenerator.buildAux c f ch (some id) (d + 1) acc) ∧
              findKey (TreeGenerator.buildAux c f ch (some id) (d + 1) acc) id = some node) := by
          intro acc ch hch hacc
          constructor
          · refine ih ch (some id) (d + 1) acc hacc.1 ?_
            intro pid hpid
            have hpid' : id = pid := by injection hpid
            subst hpid'
            refine ⟨node, hacc.2, ?_, ?_⟩
            · simpa [hnode, TreeGenerator.mkTreeNode] using hch
            · simp [hnode, TreeGenerator.mkTreeNode]
          · obtain ⟨e, hee⟩ := buildAux_mono c f ch (some id) (d + 1) acc
            rw [hee]
            exact findKey_append_left _ hacc.2
        exact (foldl_inv _ _ _ hstep _ ⟨hgp1, hfk1⟩).1

theorem buildAux_noneCount (c : FlatCollection) :
    ∀ (fuel : Nat) (id : String) (pid : String) (d : Nat)
      (proc : List (String × TreeNode)),
      noneCount (TreeGenerator.buildAux c fuel id (some pid) d proc) = noneCount proc := by
  intro fuel
  induction fuel with
  | zero => intro id pid d proc; simp [TreeGenerator.buildAux]
  | succ f ih =>
    intro id pid d proc
    cases hfind : findKey c id with
    | none => simp [TreeGenerator.buildAux, hfind]
    | some raw =>
      simp only [TreeGenerator.buildAux, hfind]
      by_cases hp : (findKey proc id).isSome
      · rw [if_pos hp]
      · rw [if_neg hp]
        have hinit :
            noneCount (proc ++ [(id, TreeGenerator.mkTreeNode id (some pid) d raw)]) =
              noneCount proc := by
          simp [noneCount, List.countP_append, TreeGenerator.mkTreeNode, List.countP_cons]
        exact foldl_inv _ (fun acc => noneCount acc = noneCount proc) _
          (fun acc ch _ hacc => (ih ch id (d + 1) acc).trans hacc) _ hinit

theorem buildAux_fromSource (c : FlatCollection) :
    ∀ (fuel : Nat) (id : String) (popt : Option String) (d : Nat)
      (proc : List (String × TreeNode)),
      FromSource c proc → FromSource c (TreeGenerator.buildAux c fuel id popt d proc) := by
  intro fuel
  induction fuel with
  | zero =>
    intro id popt d proc hfs
    simpa [TreeGenerator.buildAux] using hfs
  | succ f ih =>
    intro id popt d proc hfs
    cases hfind : findKey c id with
    | none => simpa [TreeGenerator.buildAux, hfind] using hfs
    | some raw =>
      simp only [TreeGenerator.buildAux, hfind]
      by_cases hp : (findKey proc id).isSome
      · rw [if_pos hp]; exact hfs
      · rw [if_neg hp]
        have hfs1 : FromSource c (proc ++ [(id, TreeGenerator.mkTreeNode id popt d raw)]) := by
          intro e he
          rcases List.mem_append.mp he with he1 | he1
          · exact hfs e he1
          · have he2 : e = (id, TreeGenerator.mkTreeNode id popt d raw) := by simpa using he1
            subst he2
            exact ⟨raw, popt, d, hfind, rfl⟩
        exact foldl_inv _ (FromSource c) _ (fun acc ch _ hacc => ih ch (some id) (d + 1) acc hacc)
          _ hfs1

theorem filter_length_mono {α : Type} (l : List α) (p q : α → Bool)
    (h : ∀ a ∈ l, p a = true → q a = true) :
    (l.filter p).length ≤ (l.filter q).length := by
  induction l with
  | nil => simp
  | cons a as ih =>
    have ih' := ih (fun x hx => h x (List.mem_cons_of_mem _ hx))
    by_cases hpa : p a = true
    · have hqa := h a (List.mem_cons_self _ _) hpa
      simp [List.filter_cons, hpa, hqa]
      omega
    · simp only [List.filter_cons]
      rw [if_neg hpa]
      by_cases hqa : q a = true
      · rw [if_pos hqa]
        simp only [List.length_cons]
        omega
      · rw [if_neg hqa]
        exact ih'

theorem filter_snoc_length :
    ∀ (L K : List String) (id : String), L.Nodup → id ∈ L → id ∉ K →
      (L.filter fun k => decide (k ∉ K ++ [id])).length + 1 =
        (L.filter fun k => decide (k ∉ K)).length := by
  intro L
  induction L with
  | nil => intro K id _ hm _; simp at hm
  | cons a L' ihL =>
    intro K id hnd hm hnk
    rcases List.mem_cons.mp hm with rfl | hm'
    · have hnotL' : id ∉ L' := (List.nodup_cons.mp hnd).1
      have hcong : L'.filter (fun k => decide (k ∉ K ++ [id])) =
          L'.filter (fun k => decide (k ∉ K)) := by
        apply List.filter_congr
        intro k hk
        have hne : k ≠ id := fun h => hnotL' (h ▸ hk)
        exact decide_eq_decide.mpr (by simp [List.mem_append, hne])
      have e1 : (id :: L').filter (fun k => decide (k ∉ K ++ [id])) =
          L'.filter (fun k => decide (k ∉ K ++ [id])) :=
        List.filter_cons_of_neg (by simp)
      have e2 : (id :: L').filter (fun k => decide (k ∉ K)) =
          id :: L'.filter (fun k => decide (k ∉ K)) :=
        List.filter_cons_of_pos (by simpa using hnk)
      rw [e1, e2, hcong, List.length_cons]
    · have hane : a ≠ id := by
        intro h
        subst h
        exact (List.nodup_cons.mp hnd).1 hm'
      have hpa : (decide (a ∉ K ++ [id])) = (decide (a ∉ K)) :=
        decide_eq_decide.mpr (by simp [List.mem_append, hane])
      have ihres := ihL K id (List.nodup_cons.mp hnd).2 hm' hnk
      simp only [List.filter_cons, hpa]
      by_cases hc : (decide (a ∉ K)) = true
      · rw [if_pos hc, if_pos hc]
        simp only [List.length_cons]
        omega
      · rw [if_neg hc, if_neg hc]
        exact ihres

theorem unprocessedCount_mono (c : FlatCollection)
    {proc proc' : List (String × TreeNode)}
    (h : ∀ k, k ∈ proc.map Prod.fst → k ∈ proc'.map Prod.fst) :
    unprocessedCount c proc' ≤ unprocessedCount c proc := by
  unfold unprocessedCount
  apply filter_length_mono
  intro k _ hk
  simp only [decide_eq_true_eq] at hk ⊢
  exact fun hmem => hk (h k hmem)

theorem unprocessedCount_snoc (c : FlatCollection) (hnd : (c.map Prod.fst).Nodup)
    {proc : List (String × TreeNode)} {id : String} (n : TreeNode)
    (hid : id ∈ c.map Prod.fst) (hnotp : id ∉ proc.map Prod.fst) :
    unprocessedCount c (proc ++ [(id, n)]) + 1 = unprocessedCount c proc := by
  unfold unprocessedCount
  have hkeys : ∀ k, decide (k ∉ (proc ++ [(id, n)]).map Prod.fst) =
      decide (k ∉ proc.map Prod.fst ++ [id]) := by
    intro k
    exact decide_eq_decide.mpr (by simp)
  have hrw : ((c.map Prod.fst).filter fun k =>
      decide (k ∉ (proc ++ [(id, n)]).map Prod.fst)) =
      ((c.map Prod.fst).filter fun k => decide (k ∉ proc.map Prod.fst ++ [id])) := by
    apply List.filter_congr
    intro k _
    exact hkeys k
  rw [hrw]
  exact filter_snoc_length (c.map Prod.fst) (proc.map Prod.fst) id hnd hid hnotp

theorem buildAux_closed (c : FlatCollection) (hnd : (c.map Prod.fst).Nodup) :
    ∀ (fuel : Nat) (id : String) (popt : Option String) (d : Nat)
      (proc : List (String × TreeNode)),
      unprocessedCount c proc + 2 ≤ fuel →
      ∀ e ∈ TreeGenerator.buildAux c fuel id popt d proc, e ∉ proc →
        ∀ ch ∈ e.2.children, ch ∈ c.map Prod.fst →
          ch ∈ (TreeGenerator.buildAux c fuel id popt d proc).map Prod.fst := by
  intro fuel
  induction fuel using Nat.strong_induction_on with
  | _ fuel ihf =>
    intro id popt d proc hfuel e he hnotin ch hch hchc
    obtain ⟨f, rfl⟩ : ∃ f, fuel = f + 1 := by
      cases fuel with
      | zero => omega
      | succ f => exact ⟨f, rfl⟩
    cases hfind : findKey c id with
    | none =>
      simp only [TreeGenerator.buildAux, hfind] at he ⊢
      exact absurd he hnotin
    | some raw =>
      simp only [TreeGenerator.buildAux, hfind] at he ⊢
      by_cases hp : (findKey proc id).isSome
      · rw [if_pos hp] at he ⊢
        exact absurd he hnotin
      · rw [if_neg hp] at he ⊢
        have hidc : id ∈ c.map Prod.fst := by
          rw [← findKey_isSome_iff]
          simp [hfind]
        have hidp : id ∉ proc.map Prod.fst := by
          rw [← findKey_isSome_iff]
          simpa using hp
        have hU1 := unprocessedCount_snoc c hnd
          (TreeGenerator.mkTreeNode id popt d raw) hidc hidp
        have hfuel1 : unprocessedCount c
            (proc ++ [(id, TreeGenerator.mkTreeNode id popt d raw)]) + 2 ≤ f := by
          omega
        obtain ⟨g, rfl⟩ : ∃ g, f = g + 1 := by
          cases f with
          | zero => omega
          | succ g => exact ⟨g, rfl⟩
        have hfold : ∀ (l : List String) (acc : List (String × TreeNode)),
            unprocessedCount c acc + 2 ≤ g + 1 →
            (∀ x ∈ l, x ∈ c.map Prod.fst →
              x ∈ (l.foldl (fun pr x =>
                TreeGenerator.buildAux c (g + 1) x (some id) (d + 1) pr) acc).map Prod.fst) ∧
            (∀ e' ∈ l.foldl (fun pr x =>
                TreeGenerator.buildAux c (g + 1) x (some id) (d + 1) pr) acc, e' ∉ acc →
              ∀ ch' ∈ e'.2.children, ch' ∈ c.map Prod.fst →
                ch' ∈ (l.foldl (fun pr x =>
                  TreeGenerator.buildAux c (g + 1) x (some id) (d + 1) pr) acc).map Prod.fst) ∧
            (∃ ext, l.foldl (fun pr x =>
              TreeGenerator.buildAux c (g + 1) x (some id) (d + 1) pr) acc = acc ++ ext) := by
          intro l
          induction l with
          | nil =>
            intro acc hacc
            refine ⟨by simp, ?_, ⟨[], by simp⟩⟩
            intro e' he' hnot
            exact absurd he' hnot
          | cons x xs ihl =>
            intro acc hacc
            rw [List.foldl_cons]
            obtain ⟨ex, hex⟩ := buildAux_mono c (g + 1) x (some id) (d + 1) acc
            have haccsub : ∀ k, k ∈ acc.map Prod.fst →
                k ∈ (TreeGenerator.buildAux c (g + 1) x (some id) (d + 1) acc).map Prod.fst := by
              intro k hk
              rw [hex]
              simp only [List.map_append, List.mem_append]
              exact .inl hk
            have hacc' : unprocessedCount c
                (TreeGenerator.buildAux c (g + 1) x (some id) (d + 1) acc) + 2 ≤ g + 1 :=
              le_trans (by
                have := unprocessedCount_mono c haccsub
                omega) hacc
            obtain ⟨ih1, ih2, ih3⟩ := ihl
              (TreeGenerator.buildAux c (g + 1) x (some id) (d + 1) acc) hacc'
            obtain ⟨ext2, hext2⟩ := ih3
            refine ⟨?_, ?_, ?_⟩
            · intro y hy hyc
              rcases List.mem_cons.mp hy with rfl | hy'
              · have hprog := buildAux_progress c g y (some id) (d + 1) acc hyc
                rw [hext2]
                simp only [List.map_append, List.mem_append]
                exact .inl hprog
              · exact ih1 y hy' hyc
            · intro e' he' hnot ch' hch' hch'c
              by_cases hmem : e' ∈ TreeGenerator.buildAux c (g + 1) x (some id) (d + 1) acc
              · have hcl := ihf (g + 1) (by omega) x (some id) (d + 1) acc hacc e' hmem hnot
                  ch' hch' hch'c
                rw [hext2]
                simp only [List.map_append, List.mem_append]
                exact .inl hcl
              · exact ih2 e' he' hmem ch' hch' hch'c
            · refine ⟨ex ++ ext2, ?_⟩
              rw [hext2, hex, List.append_assoc]
        obtain ⟨hf1, hf2, hf3⟩ := hfold (TreeGenerator.childTargets raw.actions)
          (proc ++ [(id, TreeGenerator.mkTreeNode id popt d raw)]) hfuel1
        by_cases hmem1 : e ∈ proc ++ [(id, TreeGenerator.mkTreeNode id popt d raw)]
        · have he2 : e = (id, TreeGenerator.mkTreeNode id popt d raw) := by
            rcases List.mem_append.mp hmem1 with h1 | h1
            · exact absurd h1 hnotin
            · simpa using h1
          have hch2 : ch ∈ TreeGenerator.childTargets raw.actions := by
            rw [he2] at hch
            simpa [TreeGenerator.mkTreeNode] using hch
          exact hf1 ch hch2 hchc
        · exact hf2 e he hmem1 ch hch hchc

/-! Root resolution and `generateTree` plumbing. -/

theorem findRootNode_ok_mem {c : FlatCollection} {r : String}
    (h : TreeGenerator.findRootNode c = .ok r) : r ∈ c.map Prod.fst := by
  unfold TreeGenerator.findRootNode at h
  cases h1 : c.find? (fun p => p.2.sequence.isEmpty || p.1 == "0") with
  | some p =>
    simp only [h1] at h
    simp only [Except.ok.injEq] at h
    subst h
    exact mem_keys_of_mem (List.mem_of_find?_eq_some h1)
  | none =>
    simp only [h1] at h
    cases h2 : c.find? (fun p => decide (p.1 ∉
        c.foldr (fun p acc => (p.2.actions.filterMap fun a => jsStr a.node) ++ acc) [])) with
    | some q =>
      simp only [h2] at h
      simp only [Except.ok.injEq] at h
      subst h
      exact mem_keys_of_mem (List.mem_of_find?_eq_some h2)
    | none =>
      simp only [h2] at h
      simp at h

theorem generateTree_ok {c : FlatCollection} {t : OptimizedTree}
    (h : TreeGenerator.generateTree c = .ok t) :
    TreeGenerator.findRootNode c = .ok t.root ∧
    t.nodes = TreeGenerator.buildTreeStructure c t.root := by
  unfold TreeGenerator.generateTree at h
  cases hr : TreeGenerator.findRootNode c with
  | error e =>
    simp only [hr] at h
    exact (Except.noConfusion h)
  | ok rootId =>
    simp only [hr] at h
    simp only [Except.ok.injEq] at h
    subst h
    exact ⟨rfl, rfl⟩

theorem jsStr_idem (o : Option String) : jsStr (jsStr o) = jsStr o := by
  cases o with
  | none => rfl
  | some s =>
    by_cases hs : s = ""
    · simp [jsStr, hs]
    · simp [jsStr, hs]

theorem snd_mem_of_mem_enum {α : Type} {l : List α} {x : Nat × α}
    (h : x ∈ l.enum) : x.2 ∈ l := by
  rw [List.mem_enum_iff_getElem?] at h
  exact List.getElem?_mem h

theorem buildTree_goodParents {c : FlatCollection} {t : OptimizedTree}
    (hbuild : TreeGenerator.generateTree c = .ok t) : GoodParents t.nodes := by
  obtain ⟨_, hnodes⟩ := generateTree_ok hbuild
  rw [hnodes]
  unfold TreeGenerator.buildTreeStructure
  refine buildAux_goodParents c (c.length + 2) t.root none 0 [] ?_ ?_
  · intro e he
    exact absurd he (List.not_mem_nil e)
  · intro pid h
    simp at h

theorem buildTree_fromSource {c : FlatCollection} {t : OptimizedTree}
    (hbuild : TreeGenerator.generateTree c = .ok t) : FromSource c t.nodes := by
  obtain ⟨_, hnodes⟩ := generateTree_ok hbuild
  rw [hnodes]
  unfold TreeGenerator.buildTreeStructure
  exact buildAux_fromSource c (c.length + 2) t.root none 0 []
    (fun e he => absurd he (List.not_mem_nil e))

theorem buildTree_root_mem {c : FlatCollection} {t : OptimizedTree}
    (hbuild : TreeGenerator.generateTree c = .ok t) :
    t.root ∈ t.nodes.map Prod.fst := by
  obtain ⟨hroot, hnodes⟩ := generateTree_ok hbuild
  rw [hnodes]
  unfold TreeGenerator.buildTreeStructure
  have hsucc : c.length + 2 = (c.length + 1) + 1 := rfl
  rw [hsucc]
  exact buildAux_progress c (c.length + 1) t.root none 0 [] (findRootNode_ok_mem hroot)

theorem unprocessedCount_nil (c : FlatCollection) :
    unprocessedCount c ([] : List (String × TreeNode)) = c.length := by
  unfold unprocessedCount
  have hall : (c.map Prod.fst).filter
      (fun k => decide (k ∉ ([] : List (String × TreeNode)).map Prod.fst)) =
      c.map Prod.fst := by
    apply List.filter_eq_self.mpr
    intro k _
    simp
  rw [hall, List.length_map]

theorem buildTree_closed {c : FlatCollection} {t : OptimizedTree}
    (hnd : (c.map Prod.fst).Nodup)
    (hbuild : TreeGenerator.generateTree c = .ok t) :
    ∀ e ∈ t.nodes, ∀ ch ∈ e.2.children, ch ∈ c.map Prod.fst →
      ch ∈ t.nodes.map Prod.fst := by
  obtain ⟨_, hnodes⟩ := generateTree_ok hbuild
  rw [hnodes]
  unfold TreeGenerator.buildTreeStructure
  intro e he ch hch hchc
  exact buildAux_closed c hnd (c.length + 2) t.root none 0 []
    (by rw [unprocessedCount_nil]) e he (List.not_mem_nil e) ch hch hchc

/-- C4: every tree produced by the builder has exactly one parentless
node, every other node's depth is its parent's depth plus one, and
`isTerminal` holds exactly when the children list is empty. -/
theorem c4_invariants (c : FlatCollection) (t : OptimizedTree)
    (hbuild : TreeGenerator.generateTree c = .ok t) :
    noneCount t.nodes = 1 ∧
    (∀ e ∈ t.nodes, ∀ pid, e.2.parentId = some pid →
      ∃ pn, findKey t.nodes pid = some pn ∧ e.2.depth = pn.depth + 1) ∧
    (∀ e ∈ t.nodes, e.2.isTerminal = e.2.children.isEmpty) := by
  obtain ⟨hroot, hnodes⟩ := generateTree_ok hbuild
  refine ⟨?_, ?_, ?_⟩
  · rw [hnodes]
    unfold TreeGenerator.buildTreeStructure
    have hsucc : c.length + 2 = (c.length + 1) + 1 := rfl
    rw [hsucc]
    obtain ⟨raw, hraw⟩ : ∃ raw, findKey c t.root = some raw := by
      have hs := (findKey_isSome_iff c t.root).mpr (findRootNode_ok_mem hroot)
      cases hfk : findKey c t.root
      · rw [hfk] at hs; simp at hs
      · exact ⟨_, rfl⟩
    simp only [TreeGenerator.buildAux, hraw]
    rw [if_neg (by simp [findKey])]
    have hinit : noneCount ([] ++ [(t.root, TreeGenerator.mkTreeNode t.root none 0 raw)]) = 1 := by
      simp [noneCount, TreeGenerator.mkTreeNode]
    exact foldl_inv _ (fun acc => noneCount acc = 1) _
      (fun acc ch _ hacc => (buildAux_noneCount c (c.length + 1) ch t.root 1 acc).trans hacc)
      _ hinit
  · intro e he pid hpid
    obtain ⟨pn, h1, _, h3⟩ := buildTree_goodParents hbuild e he pid hpid
    exact ⟨pn, h1, h3⟩
  · intro e he
    obtain ⟨raw, popt, d, _, hemk⟩ := buildTree_fromSource hbuild e he
    rw [hemk]
    simp [TreeGenerator.mkTreeNode]

/-- Witness for `c4_invariants` at the self-consistent collection `cW5`. -/
theorem c4_invariants_witness :
    noneCount tW5.nodes = 1 ∧
    (∀ e ∈ tW5.nodes, ∀ pid, e.2.parentId = some pid →
      ∃ pn, findKey tW5.nodes pid = some pn ∧ e.2.depth = pn.depth + 1) ∧
    (∀ e ∈ tW5.nodes, e.2.isTerminal = e.2.children.isEmpty) :=
  c4_invariants cW5 tW5 rfl

/-- C3 counterexample: building from the DAG collection `cexC3dag` puts
"3" in the children lists of two different nodes ("1" and "2"), refuting
"exactly one incoming child-link"; building from the cyclic collection
`cexC3cyc` produces mutual children links between "0" and "1", a cycle
`["0", "1", "0"]` in the child-link graph, refuting acyclicity. -/
theorem c3_counterexample :
    TreeGenerator.generateTree cexC3dag = Except.ok { nodes := c3dagNodes, root := "0" } ∧
    c3dagNodes.countP (fun e => decide ("3" ∈ e.2.children)) = 2 ∧
    TreeGenerator.generateTree cexC3cyc = Except.ok { nodes := c3cycNodes, root := "0" } ∧
    List.Chain' (TreeUtils.childLink c3cycNodes) ["0", "1", "0"] ∧
    (∀ e ∈ c3cycNodes, e.1 = "1" → e.2.parentId = some "0") := by
  refine ⟨rfl, by decide, rfl, ?_, by decide⟩
  refine List.chain'_cons.mpr ⟨⟨_, rfl, by decide⟩, ?_⟩
  exact List.chain'_cons.mpr ⟨⟨_, rfl, by decide⟩, List.chain'_singleton _⟩

/-- C3 amended: in every built tree, each node with a `parentId` appears
in the children list of the node stored under that `parentId` (at least
one incoming child-link, matching `parentId`); however, with DAG-sharing
the identifier may also appear in the children lists of other nodes, and
cyclic collection references yield cyclic children links, so neither the
"exactly one incoming link" half nor acyclicity holds in general. -/
theorem c3_amended (c : FlatCollection) (t : OptimizedTree)
    (hbuild : TreeGenerator.generateTree c = .ok t) :
    ∀ e ∈ t.nodes, ∀ pid, e.2.parentId = some pid →
      ∃ pn, findKey t.nodes pid = some pn ∧ e.1 ∈ pn.children := by
  intro e he pid hpid
  obtain ⟨pn, h1, h2, _⟩ := buildTree_goodParents hbuild e he pid hpid
  exact ⟨pn, h1, h2⟩

/-- Witness for `c3_amended` at the concrete collection `cW5`. -/
theorem c3_amended_witness :
    ∃ pn, findKey tW5.nodes "0" = some pn ∧ "1" ∈ pn.children :=
  c3_amended cW5 tW5 rfl ("1", TreeGenerator.mkTreeNode "1" (some "0") 1 rec5leaf)
    (by decide) "0" rfl

/-- C1 amended: a dangling action target never makes the build fail —
`generateTree` fails exactly when root resolution fails; instead the
missing identifier simply gets no node (every emitted key names a
collection record), while each emitted node is built verbatim from its
source record, so the dangling identifier remains listed in its parent's
`children` (detecting it is left to the validator). -/
theorem c1_amended (c : FlatCollection) :
    ((∃ t, TreeGenerator.generateTree c = .ok t) ↔
      (∃ r, TreeGenerator.findRootNode c = .ok r)) ∧
    (∀ t, TreeGenerator.generateTree c = .ok t →
      (∀ id, findKey c id = none → findKey t.nodes id = none) ∧
      (∀ e ∈ t.nodes, ∃ raw popt d, findKey c e.1 = some raw ∧
        e.2 = TreeGenerator.mkTreeNode e.1 popt d raw)) := by
  constructor
  · unfold TreeGenerator.generateTree
    cases hr : TreeGenerator.findRootNode c with
    | error e => simp
    | ok r => simp
  · intro t hbuild
    have hfs := buildTree_fromSource hbuild
    constructor
    · intro id hid
      rw [findKey_eq_none_iff] at hid ⊢
      intro hmm
      obtain ⟨v, hv⟩ : ∃ v, (id, v) ∈ t.nodes := by
        rcases List.mem_map.mp hmm with ⟨e, he, hfst⟩
        have heta : (id, e.2) = e := by
          rw [← hfst]
        exact ⟨e.2, heta ▸ he⟩
      obtain ⟨raw, popt, d, hraw, _⟩ := hfs (id, v) hv
      exact hid (by rw [← findKey_isSome_iff]; simp [hraw])
    · exact fun e he => hfs e he

/-- Witness for `c1_amended`: for the dangling collection `cexC1` the
build succeeds and emits no node "1". -/
theorem c1_amended_witness : findKey tC1.nodes "1" = none :=
  ((c1_amended cexC1).2 tC1 rfl).1 "1" rfl

/-! Validator round-trip (C5). -/

theorem foldl_append_nil {α : Type} (g : α → List String) :
    ∀ (l : List α), (∀ e ∈ l, g e = []) → ∀ init : List String,
      l.foldl (fun acc e => acc ++ g e) init = init := by
  intro l
  induction l with
  | nil => intro _ init; rfl
  | cons x xs ih =>
    intro h init
    rw [List.foldl_cons, h x (List.mem_cons_self _ _), List.append_nil]
    exact ih (fun e he => h e (List.mem_cons_of_mem _ he)) init

theorem nodeErrors_nil {t : OptimizedTree}
    (hgp : GoodParents t.nodes)
    (hchres : ∀ e ∈ t.nodes, ∀ ch ∈ e.2.children, ch ∈ t.nodes.map Prod.fst)
    (hact : ∀ e ∈ t.nodes, ∀ a ∈ e.2.actions, ∀ tgt, jsStr a.node = some tgt →
      tgt ∈ t.nodes.map Prod.fst)
    (e : String × TreeNode) (he : e ∈ t.nodes) :
    TreeOptimizer.nodeErrors t (t.nodes.map Prod.fst) e = [] := by
  have hchildnil : (e.2.children.filterMap fun childId =>
      if childId ∈ t.nodes.map Prod.fst then none
      else some s!"Node {e.1} references non-existent child {childId}") = [] := by
    rw [List.filterMap_eq_nil_iff]
    intro ch hch
    rw [if_pos (hchres e he ch hch)]
  have hactnil : (e.2.actions.enum.filterMap fun ia =>
      match jsStr ia.2.node with
      | some target =>
        if target ∈ t.nodes.map Prod.fst then none
        else
          let index := ia.1
          some s!"Node {e.1} action {index} references non-existent node {target}"
      | none => none) = [] := by
    rw [List.filterMap_eq_nil_iff]
    intro ia hia
    cases hjn : jsStr ia.2.node with
    | none => simp only [hjn]
    | some tgt =>
      simp only [hjn]
      rw [if_pos (hact e he ia.2 (snd_mem_of_mem_enum hia) tgt hjn)]
  cases hjp : jsStr e.2.parentId with
  | none =>
    simp only [TreeOptimizer.nodeErrors, hjp]
    rw [hchildnil, hactnil]
    rfl
  | some pid =>
    have hpe : e.2.parentId = some pid := jsStr_eq_some hjp
    obtain ⟨pn, hpn, _, hdep⟩ := hgp e he pid hpe
    have hpidmem : pid ∈ t.nodes.map Prod.fst := by
      rw [← findKey_isSome_iff]
      simp [hpn]
    simp only [TreeOptimizer.nodeErrors, hjp, hpn]
    rw [if_pos hpidmem, if_neg (by simp [hdep]), hchildnil, hactnil]
    rfl

/-- C5: validating a tree built from a self-consistent flat collection
(every action target resolves and the references form a tree) yields
`isValid = true` and no errors. -/
theorem c5_roundtrip (c : FlatCollection) (t : OptimizedTree)
    (hres : resolvesTargets c = true)
    (hshape : TreeShapedRefs c)
    (hbuild : TreeGenerator.generateTree c = .ok t) :
    TreeOptimizer.validateTree t = (true, []) := by
  have hgp := buildTree_goodParents hbuild
  have hfs := buildTree_fromSource hbuild
  have hclosed := buildTree_closed hshape.1 hbuild
  have hrootmem := buildTree_root_mem hbuild
  have hres' : ∀ p ∈ c, ∀ a ∈ p.2.actions, ∀ tgt, jsStr a.node = some tgt →
      tgt ∈ c.map Prod.fst := by
    intro p hp a ha tgt htgt
    unfold resolvesTargets at hres
    rw [List.all_eq_true] at hres
    have h2 := hres p hp
    rw [List.all_eq_true] at h2
    have h3 := h2 a ha
    rw [htgt] at h3
    simpa using h3
  have hchc : ∀ e ∈ t.nodes, ∀ ch ∈ e.2.children, ch ∈ c.map Prod.fst := by
    intro e he ch hch
    obtain ⟨raw, popt, d, hraw, hemk⟩ := hfs e he
    rw [hemk] at hch
    simp only [TreeGenerator.mkTreeNode] at hch
    obtain ⟨a, ha, hopt⟩ :=
      List.mem_filterMap.mp (by simpa [TreeGenerator.childTargets] using hch)
    exact hres' (e.1, raw) (findKey_mem hraw) a ha ch hopt
  have hchres : ∀ e ∈ t.nodes, ∀ ch ∈ e.2.children, ch ∈ t.nodes.map Prod.fst :=
    fun e he ch hch => hclosed e he ch hch (hchc e he ch hch)
  have hact : ∀ e ∈ t.nodes, ∀ a ∈ e.2.actions, ∀ tgt, jsStr a.node = some tgt →
      tgt ∈ t.nodes.map Prod.fst := by
    intro e he a ha tgt htgt
    obtain ⟨raw, popt, d, hraw, hemk⟩ := hfs e he
    rw [hemk] at ha
    simp only [TreeGenerator.mkTreeNode, List.mem_map] at ha
    obtain ⟨a0, ha0, rfl⟩ := ha
    rw [show (TreeGenerator.normAction a0).node = jsStr a0.node from rfl, jsStr_idem] at htgt
    apply hchres e he
    rw [hemk]
    simp only [TreeGenerator.mkTreeNode]
    show tgt ∈ TreeGenerator.childTargets raw.actions
    unfold TreeGenerator.childTargets
    exact List.mem_filterMap.mpr ⟨a0, ha0, htgt⟩
  have hnodesnil : ∀ e ∈ t.nodes,
      TreeOptimizer.nodeErrors t (t.nodes.map Prod.fst) e = [] :=
    fun e he => nodeErrors_nil hgp hchres hact e he
  simp only [TreeOptimizer.validateTree]
  rw [if_pos hrootmem]
  rw [foldl_append_nil (TreeOptimizer.nodeErrors t (t.nodes.map Prod.fst)) t.nodes
    hnodesnil []]
  rfl

/-- Witness for `c5_roundtrip` at the self-consistent collection `cW5`. -/
theorem c5_roundtrip_witness : TreeOptimizer.validateTree tW5 = (true, []) :=
  c5_roundtrip cW5 tW5 (by decide) ⟨by decide, by decide⟩ rfl

/-! BFS lemmas (C6, C8). -/

theorem bfsAux_nil (nodes : List (String × TreeNode)) (toId : String) :
    ∀ (fuel : Nat) (visited : List String),
      TreeUtils.bfsAux nodes toId fuel [] visited = none := by
  intro fuel visited
  cases fuel <;> rfl

theorem head?_append_left {α : Type} {l l₂ : List α} {a : α}
    (h : l.head? = some a) : (l ++ l₂).head? = some a := by
  cases l with
  | nil => simp at h
  | cons x xs => simpa using h

theorem chain'_snoc {R : String → String → Prop} {l : List String} {a b : String}
    (hc : List.Chain' R l) (hlast : l.getLast? = some a) (hr : R a b) :
    List.Chain' R (l ++ [b]) := by
  rw [List.chain'_append]
  refine ⟨hc, List.chain'_singleton _, ?_⟩
  intro x hx y hy
  rw [hlast] at hx
  simp only [Option.mem_def, Option.some.injEq] at hx
  simp only [List.head?_cons, Option.mem_def, Option.some.injEq] at hy
  subst hx
  subst hy
  exact hr

theorem bfs_sound (nodes : List (String × TreeNode)) (toId fromId : String) :
    ∀ (fuel : Nat) (queue : List (String × List String)) (visited : List String)
      (r : List String),
      (∀ e ∈ queue, GoodEntry nodes fromId e) →
      TreeUtils.bfsAux nodes toId fuel queue visited = some r →
      r.head? = some fromId ∧ r.getLast? = some toId ∧
        List.Chain' (TreeUtils.childLink nodes) r := by
  intro fuel
  induction fuel with
  | zero =>
    intro queue visited r _ h
    simp [TreeUtils.bfsAux] at h
  | succ f ih =>
    intro queue visited r hev h
    cases queue with
    | nil => simp [TreeUtils.bfsAux] at h
    | cons hd rest =>
      obtain ⟨v, p0⟩ := hd
      simp only [TreeUtils.bfsAux] at h
      by_cases hv : v = toId
      · rw [if_pos hv] at h
        have hpr : p0 = r := by injection h
        subst hpr
        have hgE := hev (v, p0) (List.mem_cons_self _ _)
        exact ⟨hgE.1, hv ▸ hgE.2.1, hgE.2.2⟩
      · rw [if_neg hv] at h
        by_cases hvis : v ∈ visited
        · rw [if_pos hvis] at h
          exact ih rest visited r (fun e he => hev e (List.mem_cons_of_mem _ he)) h
        · rw [if_neg hvis] at h
          cases hfind : findKey nodes v with
          | none =>
            simp only [hfind] at h
            exact ih rest _ r (fun e he => hev e (List.mem_cons_of_mem _ he)) h
          | some node =>
            simp only [hfind] at h
            apply ih _ _ r ?_ h
            intro e he
            rcases List.mem_append.mp he with he1 | he1
            · exact hev e (List.mem_cons_of_mem _ he1)
            · obtain ⟨ch, hch, rfl⟩ := List.mem_map.mp he1
              have hfil := List.mem_filter.mp hch
              have hgE := hev (v, p0) (List.mem_cons_self _ _)
              refine ⟨head?_append_left hgE.1, List.getLast?_concat _, ?_⟩
              exact chain'_snoc hgE.2.2 hgE.2.1 ⟨node, hfind, hfil.1⟩

theorem chain_dedup_aux {R : String → String → Prop} :
    ∀ (n : Nat) (q : List String), q.length = n → List.Chain' R q →
      ∃ cc, List.Chain' R cc ∧ cc.Nodup ∧ cc.length ≤ q.length ∧
        cc.head? = q.head? ∧ cc.getLast? = q.getLast? ∧ cc ⊆ q := by
  intro n
  induction n using Nat.strong_induction_on with
  | _ n ihn =>
    intro q hn hchain
    cases q with
    | nil => exact ⟨[], by simp, by simp, by simp, rfl, rfl, by simp⟩
    | cons a q' =>
      by_cases ha : a ∈ q'
      · obtain ⟨l₂, l₃, rfl⟩ := List.append_of_mem ha
        have hsfx : (a :: l₃).IsSuffix (a :: (l₂ ++ a :: l₃)) := ⟨a :: l₂, by simp⟩
        have hchain2 : List.Chain' R (a :: l₃) := hchain.suffix hsfx
        have hlen2 : (a :: l₃).length < n := by
          rw [← hn]
          simp
          omega
        obtain ⟨cc, h1, h2, h3, h4, h5, h6⟩ := ihn _ hlen2 (a :: l₃) rfl hchain2
        refine ⟨cc, h1, h2, ?_, ?_, ?_, ?_⟩
        · simp only [List.length_cons, List.length_append] at h3 ⊢
          omega
        · rw [h4]
          rfl
        · rw [h5]
          have hsplit : a :: (l₂ ++ a :: l₃) = (a :: l₂) ++ (a :: l₃) := rfl
          rw [hsplit, List.getLast?_append_of_ne_nil (a :: l₂) (by simp)]
        · intro x hx
          have hx2 := h6 hx
          rcases List.mem_cons.mp hx2 with rfl | hx3
          · exact List.mem_cons_self _ _
          · exact List.mem_cons_of_mem _ (by simp [hx3])
      · cases hq' : q' with
        | nil =>
          exact ⟨[a], List.chain'_singleton a, by simp, by simp, rfl, rfl, by simp⟩
        | cons b q'' =>
          subst hq'
          have hchain' : List.Chain' R (b :: q'') := hchain.tail
          have hlen' : (b :: q'').length < n := by
            rw [← hn]
            simp
          obtain ⟨cc, h1, h2, h3, h4, h5, h6⟩ := ihn _ hlen' (b :: q'') rfl hchain'
          cases cc with
          | nil => simp at h4
          | cons c0 cc' =>
            have hc0 : c0 = b := by simpa using h4
            refine ⟨a :: c0 :: cc', ?_, ?_, ?_, ?_, ?_, ?_⟩
            · rw [List.chain'_cons']
              refine ⟨?_, h1⟩
              intro y hy
              simp only [List.head?_cons, Option.mem_def, Option.some.injEq] at hy
              subst hy
              subst hc0
              exact (List.chain'_cons.mp hchain).1
            · rw [List.nodup_cons]
              exact ⟨fun hx => ha (h6 hx), h2⟩
            · simp only [List.length_cons] at h3 ⊢
              omega
            · rfl
            · rw [List.getLast?_cons_cons, h5, List.getLast?_cons_cons]
            · intro x hx
              rcases List.mem_cons.mp hx with rfl | hx2
              · exact List.mem_cons_self _ _
              · exact List.mem_cons_of_mem _ (h6 hx2)

theorem chain_dedup {R : String → String → Prop} (q : List String)
    (hchain : List.Chain' R q) :
    ∃ cc, List.Chain' R cc ∧ cc.Nodup ∧ cc.length ≤ q.length ∧
      cc.head? = q.head? ∧ cc.getLast? = q.getLast? ∧ cc ⊆ q :=
  chain_dedup_aux q.length q rfl hchain

theorem childBudget_mono (nodes : List (String × TreeNode)) (visited : List String)
    (v : String) :
    TreeUtils.childBudget nodes (visited ++ [v]) ≤ TreeUtils.childBudget nodes visited := by
  unfold TreeUtils.childBudget
  induction nodes with
  | nil => simp
  | cons e rest ih =>
    simp only [List.filter_cons]
    by_cases hp1 : e.1 ∉ visited ++ [v]
    · have hp2 : e.1 ∉ visited := fun hm => hp1 (by simp [hm])
      rw [if_pos (by simpa using hp1), if_pos (by simpa using hp2)]
      simp only [List.map_cons, List.sum_cons]
      omega
    · rw [if_neg (by simpa using hp1)]
      by_cases hp2 : e.1 ∉ visited
      · rw [if_pos (by simpa using hp2)]
        simp only [List.map_cons, List.sum_cons]
        omega
      · rw [if_neg (by simpa using hp2)]
        exact ih

theorem childBudget_drop :
    ∀ (nodes : List (String × TreeNode)) (visited : List String) (v : String)
      (node : TreeNode), v ∉ visited → findKey nodes v = some node →
      TreeUtils.childBudget nodes (visited ++ [v]) + node.children.length ≤
        TreeUtils.childBudget nodes visited := by
  intro nodes
  induction nodes with
  | nil =>
    intro visited v node _ hfind
    simp [findKey] at hfind
  | cons e rest ih =>
    intro visited v node hvis hfind
    unfold TreeUtils.childBudget
    simp only [List.filter_cons]
    by_cases he : e.1 = v
    · have hnode : node = e.2 := by
        simp only [findKey, if_pos he] at hfind
        exact (Option.some.inj hfind).symm
      rw [if_neg (by simp [he]), if_pos (by simp [he, hvis])]
      simp only [List.map_cons, List.sum_cons]
      have hmono := childBudget_mono rest visited v
      unfold TreeUtils.childBudget at hmono
      subst hnode
      omega
    · have hfind' : findKey rest v = some node := by
        simpa [findKey, if_neg he] using hfind
      have hrec := ih visited v node hvis hfind'
      unfold TreeUtils.childBudget at hrec
      by_cases hp2 : e.1 ∉ visited
      · have hp1 : e.1 ∉ visited ++ [v] := by
          simp only [List.mem_append, List.mem_singleton]
          push_neg
          exact ⟨hp2, he⟩
        rw [if_pos (by simpa using hp1), if_pos (by simpa using hp2)]
        simp only [List.map_cons, List.sum_cons]
        omega
      · have hp2' : e.1 ∈ visited := not_not.mp hp2
        rw [if_neg (by simp [hp2']), if_neg (by simp [hp2'])]
        exact hrec

theorem get_of_getLast? :
    ∀ (l : List String) (a : String), l.getLast? = some a →
      ∀ (i : Nat) (hi : i < l.length), i + 1 = l.length → l.get ⟨i, hi⟩ = a := by
  intro l
  induction l with
  | nil => intro a h; simp at h
  | cons x xs ih =>
    intro a h i hi hlen
    cases xs with
    | nil =>
      have hx : x = a := by simpa using h
      have hi0 : i = 0 := by simpa using hlen
      subst hi0
      simpa using hx
    | cons y ys =>
      rw [List.getLast?_cons_cons] at h
      cases i with
      | zero => simp at hlen
      | succ i' =>
        have : (x :: y :: ys).get ⟨i' + 1, hi⟩ = (y :: ys).get ⟨i', by simpa using hi⟩ :=
          List.get_cons_succ
        rw [this]
        exact ih a h i' (by simpa using hi) (by simpa using hlen)

theorem bfs_reaches (nodes : List (String × TreeNode)) (toId : String)
    (xs : List String) (hxs : List.Chain' (TreeUtils.childLink nodes) xs)
    (hnodup : xs.Nodup) (hlast : xs.getLast? = some toId) :
    ∀ (fuel : Nat) (queue : List (String × List String)) (visited : List String),
      queue.length + TreeUtils.childBudget nodes visited ≤ fuel →
      List.Pairwise (fun e1 e2 => e1.2.length ≤ e2.2.length) queue →
      (∀ e1 ∈ queue, ∀ e2 ∈ queue, e1.2.length ≤ e2.2.length + 1) →
      (∃ j, ∃ hj : j < xs.length, ∃ p, (xs.get ⟨j, hj⟩, p) ∈ queue ∧ p.length ≤ j + 1 ∧
        ∀ i (hi : i < xs.length), j ≤ i → xs.get ⟨i, hi⟩ ∉ visited) →
      ∃ r, TreeUtils.bfsAux nodes toId fuel queue visited = some r ∧
        r.length ≤ xs.length := by
  intro fuel
  induction fuel with
  | zero =>
    intro queue visited hfuel _ _ hCI
    obtain ⟨j, hj, p, hmem, _, _⟩ := hCI
    have hpos : 0 < queue.length := List.length_pos.mpr (List.ne_nil_of_mem hmem)
    omega
  | succ f ih =>
    intro queue visited hfuel hsort hbnd hCI
    obtain ⟨j, hj, p, hmem, hplen, hunvis⟩ := hCI
    cases queue with
    | nil => exact absurd hmem (List.not_mem_nil _)
    | cons hd rest =>
      obtain ⟨v, p0⟩ := hd
      have hqhead : ((v, p0) : String × List String) ∈ (v, p0) :: rest :=
        List.mem_cons_self _ _
      have hheadmin : ∀ e ∈ rest, p0.length ≤ e.2.length :=
        fun e he => (List.pairwise_cons.mp hsort).1 e he
      have hp0p : p0.length ≤ p.length := by
        rcases List.mem_cons.mp hmem with heq | hmem'
        · have hpp : p = p0 := congrArg Prod.snd heq
          exact hpp ▸ le_refl _
        · exact hheadmin _ hmem'
      have hdesignated_rest : xs.get ⟨j, hj⟩ ≠ v → (xs.get ⟨j, hj⟩, p) ∈ rest := by
        intro hne
        rcases List.mem_cons.mp hmem with heq | hm
        · exact absurd (congrArg Prod.fst heq) hne
        · exact hm
      simp only [TreeUtils.bfsAux]
      by_cases hv : v = toId
      · rw [if_pos hv]
        exact ⟨p0, rfl, by omega⟩
      · rw [if_neg hv]
        by_cases hvis : v ∈ visited
        · rw [if_pos hvis]
          have hxsjnv : xs.get ⟨j, hj⟩ ≠ v := by
            intro h
            exact hunvis j hj (le_refl j) (by rw [h]; exact hvis)
          refine ih rest visited ?_ (List.pairwise_cons.mp hsort).2
            (fun e1 h1 e2 h2 =>
              hbnd e1 (List.mem_cons_of_mem _ h1) e2 (List.mem_cons_of_mem _ h2))
            ⟨j, hj, p, hdesignated_rest hxsjnv, hplen, hunvis⟩
          simp only [List.length_cons] at hfuel
          omega
        · rw [if_neg hvis]
          have hlastget : ∀ (hi : xs.length - 1 < xs.length),
              xs.get ⟨xs.length - 1, hi⟩ = toId := by
            intro hi
            exact get_of_getLast? xs toId hlast _ hi (by omega)
          have hchain_get : ∀ (i : Nat) (h2 : i + 1 < xs.length),
              TreeUtils.childLink nodes (xs.get ⟨i, by omega⟩) (xs.get ⟨i + 1, h2⟩) := by
            intro i h2
            exact List.chain'_iff_get.mp hxs i (by omega)
          cases hfind : findKey nodes v with
          | none =>
            have hvnot : ∀ (i : Nat) (hi : i < xs.length), j ≤ i →
                xs.get ⟨i, hi⟩ ≠ v := by
              intro i hi hji h
              by_cases hilast : i + 1 < xs.length
              · obtain ⟨nd, hnd, _⟩ := hchain_get i hilast
                rw [h, hfind] at hnd
                exact Option.noConfusion hnd
              · have hieq : i = xs.length - 1 := by omega
                subst hieq
                exact hv (h ▸ hlastget hi)
            refine ih rest (visited ++ [v]) ?_ (List.pairwise_cons.mp hsort).2
              (fun e1 h1 e2 h2 =>
                hbnd e1 (List.mem_cons_of_mem _ h1) e2 (List.mem_cons_of_mem _ h2))
              ⟨j, hj, p, hdesignated_rest (hvnot j hj (le_refl j)), hplen, ?_⟩
            · have hmono := childBudget_mono nodes visited v
              simp only [List.length_cons] at hfuel
              omega
            · intro i hi hji
              simp only [List.mem_append, List.mem_singleton]
              push_neg
              exact ⟨hunvis i hi hji, hvnot i hi hji⟩
          | some node =>
            have hpushlen :
                ((node.children.filter (fun ch => decide (ch ∉ visited ++ [v]))).map
                  (fun ch => (ch, p0 ++ [ch]))).length ≤ node.children.length := by
              rw [List.length_map]
              exact List.length_filter_le _ _
            have hlenpush : ∀ e ∈ (node.children.filter
                (fun ch => decide (ch ∉ visited ++ [v]))).map (fun ch => (ch, p0 ++ [ch])),
                e.2.length = p0.length + 1 := by
              intro e he
              obtain ⟨ch, _, rfl⟩ := List.mem_map.mp he
              simp
            have hdropB := childBudget_drop nodes visited v node hvis hfind
            have hfuel' : (rest ++ (node.children.filter
                (fun ch => decide (ch ∉ visited ++ [v]))).map
                  (fun ch => (ch, p0 ++ [ch]))).length +
                TreeUtils.childBudget nodes (visited ++ [v]) ≤ f := by
              simp only [List.length_append]
              simp only [List.length_cons] at hfuel
              omega
            have hsort' : List.Pairwise (fun e1 e2 => e1.2.length ≤ e2.2.length)
                (rest ++ (node.children.filter
                  (fun ch => decide (ch ∉ visited ++ [v]))).map
                    (fun ch => (ch, p0 ++ [ch]))) := by
              rw [List.pairwise_append]
              refine ⟨(List.pairwise_cons.mp hsort).2, ?_, ?_⟩
              · apply List.pairwise_of_forall_mem_list
                intro a ha b hb
                rw [hlenpush a ha, hlenpush b hb]
              · intro a ha b hb
                have h1 : a.2.length ≤ p0.length + 1 :=
                  hbnd a (List.mem_cons_of_mem _ ha) (v, p0) hqhead
                have h2 := hlenpush b hb
                omega
            have hbnd' : ∀ e1 ∈ rest ++ (node.children.filter
                  (fun ch => decide (ch ∉ visited ++ [v]))).map
                    (fun ch => (ch, p0 ++ [ch])),
                ∀ e2 ∈ rest ++ (node.children.filter
                  (fun ch => decide (ch ∉ visited ++ [v]))).map
                    (fun ch => (ch, p0 ++ [ch])),
                e1.2.length ≤ e2.2.length + 1 := by
              intro e1 h1 e2 h2
              rcases List.mem_append.mp h1 with h1 | h1 <;>
                rcases List.mem_append.mp h2 with h2 | h2
              · exact hbnd e1 (List.mem_cons_of_mem _ h1) e2 (List.mem_cons_of_mem _ h2)
              · have ha : e1.2.length ≤ p0.length + 1 :=
                  hbnd e1 (List.mem_cons_of_mem _ h1) (v, p0) hqhead
                have hb := hlenpush e2 h2
                omega
              · have ha := hlenpush e1 h1
                have hb := hheadmin e2 h2
                omega
              · have ha := hlenpush e1 h1
                have hb := hlenpush e2 h2
                omega
            by_cases hvx : ∃ i, ∃ hi : i < xs.length, j ≤ i ∧ xs.get ⟨i, hi⟩ = v
            · obtain ⟨i, hi, hji, hxi⟩ := hvx
              have hilast : i + 1 < xs.length := by
                by_contra hcon
                have hieq : i = xs.length - 1 := by omega
                subst hieq
                exact hv (hxi ▸ hlastget hi)
              obtain ⟨nd, hnd, hchld⟩ := hchain_get i hilast
              rw [hxi, hfind] at hnd
              have hndeq : node = nd := by injection hnd
              subst hndeq
              have hnext_unvis : xs.get ⟨i + 1, hilast⟩ ∉ visited ++ [v] := by
                simp only [List.mem_append, List.mem_singleton]
                push_neg
                refine ⟨hunvis (i + 1) hilast (by omega), ?_⟩
                intro h
                rw [← hxi] at h
                have hfin := (List.Nodup.get_inj_iff hnodup).mp h
                have : i + 1 = i := congrArg Fin.val hfin
                omega
              have hpush : (xs.get ⟨i + 1, hilast⟩, p0 ++ [xs.get ⟨i + 1, hilast⟩]) ∈
                  (node.children.filter (fun ch => decide (ch ∉ visited ++ [v]))).map
                    (fun ch => (ch, p0 ++ [ch])) := by
                apply List.mem_map.mpr
                refine ⟨xs.get ⟨i + 1, hilast⟩, ?_, rfl⟩
                apply List.mem_filter.mpr
                exact ⟨hchld, by simpa using hnext_unvis⟩
              refine ih _ (visited ++ [v]) hfuel' hsort' hbnd'
                ⟨i + 1, hilast, p0 ++ [xs.get ⟨i + 1, hilast⟩],
                  List.mem_append_right _ hpush, ?_, ?_⟩
              · simp only [List.length_append, List.length_singleton]
                omega
              · intro i' hi' hji'
                simp only [List.mem_append, List.mem_singleton]
                push_neg
                refine ⟨hunvis i' hi' (by omega), ?_⟩
                intro h
                rw [← hxi] at h
                have hfin := (List.Nodup.get_inj_iff hnodup).mp h
                have : i' = i := congrArg Fin.val hfin
                omega
            · push_neg at hvx
              have hxsjnv : xs.get ⟨j, hj⟩ ≠ v := hvx j hj (le_refl j)
              refine ih _ (visited ++ [v]) hfuel' hsort' hbnd'
                ⟨j, hj, p, List.mem_append_left _ (hdesignated_rest hxsjnv), hplen, ?_⟩
              intro i hi hji
              simp only [List.mem_append, List.mem_singleton]
              push_neg
              exact ⟨hunvis i hi hji, hvx i hi hji⟩

theorem chain_last_link {R : String → String → Prop} :
    ∀ (pth : List String) (z : String), List.Chain' R pth → 2 ≤ pth.length →
      pth.getLast? = some z → ∃ y, R y z := by
  intro pth
  induction pth with
  | nil => intro z _ h2 _; simp at h2
  | cons a t ih =>
    intro z hc h2 hl
    cases t with
    | nil => simp at h2
    | cons b t' =>
      cases t' with
      | nil =>
        have hz : b = z := by simpa using hl
        exact ⟨a, hz ▸ (List.chain'_cons.mp hc).1⟩
      | cons c t'' =>
        rw [List.getLast?_cons_cons] at hl
        exact ih z hc.tail (by simp) hl

theorem bfs_refl (t : OptimizedTree) (s : String) :
    TreeUtils.findShortestPath t s s = some [s] := by
  unfold TreeUtils.findShortestPath
  simp only [TreeUtils.bfsAux]
  simp

theorem singleton_goodEntry (nodes : List (String × TreeNode)) (fromId : String) :
    ∀ e ∈ [((fromId : String), [fromId])], GoodEntry nodes fromId e := by
  intro e he
  have he2 : e = (fromId, [fromId]) := by simpa using he
  subst he2
  exact ⟨rfl, rfl, List.chain'_singleton _⟩

/-- C8: `findShortestPath(tree, root, root)` returns `[root]`; when no
child-link path from `fromId` reaches `toId` the search returns the
absence signal `none`; and every returned list is a child-link path from
`fromId` to `toId` of minimal length among all such paths. -/
theorem c8_shortestPath (t : OptimizedTree) (fromId toId : String) :
    TreeUtils.findShortestPath t t.root t.root = some [t.root] ∧
    ((¬ ∃ pth, TreeUtils.ValidChain t.nodes fromId toId pth) →
      TreeUtils.findShortestPath t fromId toId = none) ∧
    (∀ r, TreeUtils.findShortestPath t fromId toId = some r →
      TreeUtils.ValidChain t.nodes fromId toId r ∧
      ∀ q, TreeUtils.ValidChain t.nodes fromId toId q → r.length ≤ q.length) := by
  refine ⟨bfs_refl t t.root, ?_, ?_⟩
  · intro hnone
    cases hres : TreeUtils.findShortestPath t fromId toId with
    | none => rfl
    | some r =>
      exfalso
      apply hnone
      unfold TreeUtils.findShortestPath at hres
      have hsound := bfs_sound t.nodes toId fromId _ _ _ r
        (singleton_goodEntry t.nodes fromId) hres
      exact ⟨r, hsound.1, hsound.2.1, hsound.2.2⟩
  · intro r hres
    unfold TreeUtils.findShortestPath at hres
    have hsound := bfs_sound t.nodes toId fromId _ _ _ r
      (singleton_goodEntry t.nodes fromId) hres
    refine ⟨⟨hsound.1, hsound.2.1, hsound.2.2⟩, ?_⟩
    intro q hq
    obtain ⟨hqh, hql, hqc⟩ := hq
    obtain ⟨cc, hc1, hc2, hc3, hc4, hc5, _⟩ := chain_dedup q hqc
    rw [hqh] at hc4
    rw [hql] at hc5
    cases cc with
    | nil => simp at hc4
    | cons c0 cc' =>
      have hc0 : c0 = fromId := by simpa using hc4
      rw [hc0] at hc1 hc2 hc3 hc5
      have hreach := bfs_reaches t.nodes toId (fromId :: cc') hc1 hc2 hc5
        (TreeUtils.childBudget t.nodes [] + 1) [(fromId, [fromId])] []
        (by simp only [List.length_singleton]; omega)
        (List.pairwise_singleton _ _)
        (by
          intro e1 h1 e2 h2
          have he1 : e1 = (fromId, [fromId]) := by simpa using h1
          have he2 : e2 = (fromId, [fromId]) := by simpa using h2
          subst he1
          subst he2
          simp)
        ⟨0, by simp, [fromId], by simp, by simp, fun i hi _ => List.not_mem_nil _⟩
      obtain ⟨r', hr'eq, hr'len⟩ := hreach
      have hrr : r = r' := by
        rw [hres] at hr'eq
        exact Option.some.inj hr'eq
      rw [hrr]
      calc r'.length ≤ (fromId :: cc').length := hr'len
        _ ≤ q.length := hc3

/-- C6 counterexample: for the one-node tree `t6` and the unknown
identifier "zzz" used as both source and destination,
`findShortestPath` returns `["zzz"]`, not the absence signal — the
target test precedes the existence check. -/
theorem c6_counterexample :
    findKey t6.nodes "zzz" = none ∧
    TreeUtils.findShortestPath t6 "zzz" "zzz" = some ["zzz"] := ⟨rfl, rfl⟩

/-- C6 amended: `getNavigationPath` returns `null` for every identifier
not among the tree's nodes, and `findShortestPath` returns `null` for an
unknown source different from the destination and for a destination that
no node lists as a child — but when source and destination are equal it
returns the one-element path even when the identifier is unknown.
Neither operation throws: both are total functions of their inputs. -/
theorem c6_amended (t : OptimizedTree) :
    (∀ id, id ∉ t.nodes.map Prod.fst →
      TreeNavigator.getNavigationPath (TreeNavigator.buildCache t.nodes) id = none) ∧
    (∀ s d, s ≠ d → s ∉ t.nodes.map Prod.fst →
      TreeUtils.findShortestPath t s d = none) ∧
    (∀ s, TreeUtils.findShortestPath t s s = some [s]) ∧
    (∀ s d, s ≠ d → (∀ e ∈ t.nodes, d ∉ e.2.children) →
      TreeUtils.findShortestPath t s d = none) := by
  refine ⟨?_, ?_, bfs_refl t, ?_⟩
  · intro id hid
    have hsub : id ∉ (TreeNavigator.buildCache t.nodes).map Prod.fst := by
      intro hmm
      apply hid
      rcases List.mem_map.mp hmm with ⟨e, he, hfst⟩
      rw [← hfst]
      exact mem_keys_of_mem (mem_buildCache he)
    have hfk : findKey (TreeNavigator.buildCache t.nodes) id = none :=
      (findKey_eq_none_iff _ _).mpr hsub
    simp only [TreeNavigator.getNavigationPath, hfk]
  · intro s d hsd hs
    unfold TreeUtils.findShortestPath
    have hfk : findKey t.nodes s = none := (findKey_eq_none_iff _ _).mpr hs
    simp only [TreeUtils.bfsAux, if_neg hsd, hfk]
    rw [if_neg (List.not_mem_nil s)]
    exact bfsAux_nil t.nodes d _ _
  · intro s d hsd hnochild
    cases hres : TreeUtils.findShortestPath t s d with
    | none => rfl
    | some r =>
      exfalso
      unfold TreeUtils.findShortestPath at hres
      have hsound := bfs_sound t.nodes d s _ _ _ r (singleton_goodEntry t.nodes s) hres
      obtain ⟨hh, hl, hc⟩ := hsound
      cases r with
      | nil => simp at hh
      | cons x rstr =>
        cases rstr with
        | nil =>
          have h1 : x = s := by simpa using hh
          have h2 : x = d := by simpa using hl
          exact hsd (h1 ▸ h2)
        | cons y rs =>
          obtain ⟨w, hw⟩ := chain_last_link (x :: y :: rs) d hc (by simp) hl
          obtain ⟨nd, hnd, hmem⟩ := hw
          exact hnochild (w, nd) (findKey_mem hnd) hmem

/-- Witness for `c6_amended` at the one-node tree `t6`. -/
theorem c6_amended_witness :
    TreeNavigator.getNavigationPath (TreeNavigator.buildCache t6.nodes) "q" = none ∧
    TreeUtils.findShortestPath t6 "a" "b" = none ∧
    TreeUtils.findShortestPath t6 "zzz" "zzz" = some ["zzz"] ∧
    TreeUtils.findShortestPath t6 "0" "x" = none :=
  ⟨(c6_amended t6).1 "q" (by decide),
   (c6_amended t6).2.1 "a" "b" (by decide) (by decide),
   (c6_amended t6).2.2.1 "zzz",
   (c6_amended t6).2.2.2 "0" "x" (by decide) (by decide)⟩

/-- Witness for `c8_shortestPath` at the two-node tree `tW5`. -/
theorem c8_shortestPath_witness :
    TreeUtils.findShortestPath tW5 tW5.root tW5.root = some [tW5.root] ∧
    (TreeUtils.ValidChain tW5.nodes "0" "1" ["0", "1"] ∧
      ∀ q, TreeUtils.ValidChain tW5.nodes "0" "1" q →
        (["0", "1"] : List String).length ≤ q.length) ∧
    TreeUtils.findShortestPath tW5 "1" "0" = none := by
  refine ⟨(c8_shortestPath tW5 "x" "y").1,
    (c8_shortestPath tW5 "0" "1").2.2 ["0", "1"] rfl, ?_⟩
  apply (c8_shortestPath tW5 "1" "0").2.1
  rintro ⟨pth, hh, hl, hc⟩
  cases pth with
  | nil => simp at hh
  | cons a tl =>
    have ha : a = "1" := by simpa using hh
    subst ha
    cases tl with
    | nil =>
      simp at hl
    | cons b tl' =>
      obtain ⟨n, hn, hbmem⟩ := (List.chain'_cons.mp hc).1
      have hneq : n = TreeGenerator.mkTreeNode "1" (some "0") 1 rec5leaf := by
        have hfk : findKey tW5.nodes "1" =
            some (TreeGenerator.mkTreeNode "1" (some "0") 1 rec5leaf) := rfl
        rw [hfk] at hn
        exact (Option.some.inj hn).symm
      have hch : n.children = [] := by rw [hneq]; rfl
      rw [hch] at hbmem
      exact List.not_mem_nil b hbmem

end PokerTree
